import Mathlib

/-!
Shallow embedding of the tiedot query processor (`src/benchmark.go`, the
`package db` query-processor half) and proofs about its claimed properties.

Documents and query expressions are both JSON-shaped dynamic values, exactly
as in the source where both are `interface` values produced by
`encoding/json`.  The collection and its partitioned hash indexes are
collaborators outside the evaluator; they are represented by their contracts
(spec sections 2, 3 and 6): an abstract read function, a list of live
document ids, an indexed-path set and a 2-D table of hash tables.

Go machine integers are modelled as `Int` (no overflow is exercised by the
evaluator: it only counts, compares and truncates), JSON numbers (Go
`float64`) as `Rat`, and the mutation of the caller's `result` map as
explicit state passing: each operator takes the accumulator and returns the
new accumulator together with an optional error, mirroring Go's
`(result *map, err error)` convention.
-/

namespace Tiedot

/-- JSON values as decoded by Go `encoding/json` into dynamic values:
`nil`, `bool`, `float64`, `string`, `so-called slices` and string-keyed maps.
Both documents and query expressions have this shape in the source. -/
inductive Jval where
  | null : Jval
  | bool (b : Bool) : Jval
  | num (q : ℚ) : Jval
  | str (s : String) : Jval
  | arr (elems : List Jval) : Jval
  | obj (fields : List (String × Jval)) : Jval

/-- Go map indexing `expr[key]` with the presence flag: returns the value at
the first matching key, if any (Go maps have unique keys, so first-match
agrees with map lookup). -/
def mapGet : List (String × Jval) → String → Option Jval
  | [], _ => none
  | (k, v) :: rest, key => if k = key then some v else mapGet rest key

theorem mapGet_sizeOf {fields : List (String × Jval)} {key : String} {v : Jval}
    (h : mapGet fields key = some v) : sizeOf v < sizeOf fields := by
  induction fields with
  | nil => simp [mapGet] at h
  | cons f rest ih =>
    obtain ⟨k, w⟩ := f
    by_cases hk : k = key
    · simp [mapGet, hk] at h
      subst h
      simp only [List.cons.sizeOf_spec, Prod.mk.sizeOf_spec]
      omega
    · simp only [mapGet, hk, if_false] at h
      have := ih h
      simp only [List.cons.sizeOf_spec, Prod.mk.sizeOf_spec]
      omega

/-- Go's conversion `int(f)` of a `float64` to a machine integer: truncation
toward zero (every `float64` is an exact rational, so rational truncation
agrees with the Go conversion). -/
def ratTrunc (q : ℚ) : Int := q.num.tdiv (q.den : Int)

/-- Modelled from the spec (section 6): Go `fmt.Sprint` restricted to the
canonical string forms the index contract pins down — strings unchanged,
integers in decimal with no leading zeros and no plus sign, booleans
`true`/`false`.  Renderings of the remaining shapes (non-integral numbers,
nil, composites) are stand-ins: the source never relies on their exact
text, only on `fmt.Sprint` being a deterministic function of the value. -/
def fmtNum (q : ℚ) : String :=
  if q.den = 1 then toString q.num else toString q.num ++ "/" ++ toString q.den

mutual

/-- Modelled from the spec (section 6): deterministic canonical
stringification shared by index build and query; see `fmtNum`. -/
def fmtSprint : Jval → String
  | .null => "<nil>"
  | .bool b => if b then "true" else "false"
  | .num q => fmtNum q
  | .str s => s
  | .arr elems => "[" ++ String.intercalate " " (fmtList elems) ++ "]"
  | .obj fields => "map[" ++ String.intercalate " " (fmtFields fields) ++ "]"

def fmtList : List Jval → List String
  | [] => []
  | x :: xs => fmtSprint x :: fmtList xs

def fmtFields : List (String × Jval) → List String
  | [] => []
  | (k, v) :: fs => (k ++ ":" ++ fmtSprint v) :: fmtFields fs

end

/-- Modelled from the spec (section 6): the 64-bit string hash shared with
index build.  Claims never depend on its arithmetic, only on it being a
deterministic function of the canonical string. -/
def StrHash (s : String) : Nat :=
  s.toList.foldl (fun h c => (h * 65599 + c.toNat) % 2 ^ 64) 0

/-- Modelled from the spec (section 6): the path-join separator, a single
reserved character shared with index build; the in-source `IntRange` joins
with a comma, pinning its value. -/
def INDEX_PATH_SEP : String := ","

/-- Go `strconv.ParseInt(s, 10, 64)`: an optional single `+` or `-` sign
followed by at least one decimal digit, with the result required to fit in
a signed 64-bit integer; anything else is an error (`none`). -/
def parseIntGo (s : String) : Option Int :=
  let (sign, digits) :=
    match s.toList with
    | '-' :: rest => ((-1 : Int), rest)
    | '+' :: rest => ((1 : Int), rest)
    | chars => ((1 : Int), chars)
  if digits.isEmpty then none
  else if digits.all Char.isDigit then
    let n : Nat := digits.foldl (fun a c => a * 10 + (c.toNat - 48)) 0
    let v : Int := sign * n
    if -(2 ^ 63) ≤ v ∧ v ≤ 2 ^ 63 - 1 then some v else none
  else none

/-- One constructor per distinct `errors.New` site of the query processor;
the constructor identifies the site, the payload carries the varying part
of the message.  `unindexedPath` corresponds to the three
`Please index ... and retry query ...` messages. -/
inductive QErr where
  | missingIn : QErr
  | notVectorIn : QErr
  | notVectorHas : QErr
  | badLimit : QErr
  | badIntFrom : QErr
  | badIntTo : QErr
  | missingIntTo : QErr
  | notDocID (s : String) : QErr
  | noOperation : QErr
  | notVectorSub : QErr
  | unindexedPath (joined : String) : QErr
deriving DecidableEq

/-- Contract of one hash-table partition (spec sections 2 and 6):
`get key limit` returns up to `limit` ids matching `key`;
`getPartition chunk chunkCount` returns the ids of one chunk.
Locking is invisible to the single-threaded semantics. -/
structure HashTable where
  get : Nat → Int → List Int
  getPartition : Nat → Nat → List Int

/-- Contract of the collection façade consumed by the evaluator
(spec section 6): live document ids in iteration order, read-by-id,
the indexed-path set, a partition count, the 2-D hash-table lookup and the
approximate document count used only for chunking. -/
structure Col where
  docIDs : List Int
  read : Int → Option Jval
  numParts : Nat
  indexPaths : List String
  hts : Nat → String → HashTable
  approxDocCount : Nat

/-- Modelled from the spec (sections 3 and 4.6): the path resolver `GetIn`.
Descend one segment at a time; a mapping selects the value at the segment
key (yielding nothing when the key is absent), an ordered sequence maps the
remaining path across each element and flattens, a scalar met before the
path is exhausted yields nothing; the values reached when the path is
exhausted are the leaves. -/
def GetIn (doc : Jval) (path : List String) : List Jval :=
  match path with
  | [] => [doc]
  | seg :: rest =>
    match doc with
    | .obj fields =>
      match hseg : mapGet fields seg with
      | some v => GetIn v rest
      | none => []
    | .arr elems => (elems.attach.map fun e => GetIn e.1 (seg :: rest)).flatten
    | _ => []
termination_by sizeOf doc
decreasing_by
  · have h1 := mapGet_sizeOf hseg
    simp only [Jval.obj.sizeOf_spec]
    omega
  · have h1 := List.sizeOf_lt_of_mem e.2
    simp only [Jval.arr.sizeOf_spec]
    omega

/-- The repeated limit-extraction block of `Lookup`, `PathExistence` and
`IntRange`: a missing `limit` means 0 (unlimited), a numeric `limit` is
truncated to an integer, anything else is the
`Expecting limit as a number` error. -/
def parseLimit (expr : List (String × Jval)) : Except QErr Int :=
  match mapGet expr "limit" with
  | none => .ok 0
  | some (.num q) => .ok (ratTrunc q)
  | some _ => .error .badLimit

/-- The vector-path conversion used by all leaf operators: a JSON array is
mapped through `fmt.Sprint` element-wise; anything else is rejected. -/
def toVecPath : Jval → Option (List String)
  | .arr elems => some (elems.map fmtSprint)
  | _ => none

/-- `(col *Col) hashScan(idxName, key, limit)`: probe the partition owning
`key` in index `idxName`. -/
def hashScan (col : Col) (idxName : String) (key : Nat) (limit : Int) : List Int :=
  (col.hts (key % col.numParts) idxName).get key limit

/-- The candidate-filter loop of `Lookup`: for each candidate id, read the
document (read failures are skipped), resolve the path on it, and insert
the id once some resolved leaf stringifies to the lookup string. -/
def lookupFilter (src : Col) (vecPath : List String) (lookupStrValue : String) :
    List Int → Finset Int → Finset Int
  | [], result => result
  | m :: rest, result =>
    let result' :=
      match src.read m with
      | some doc =>
        (GetIn doc vecPath).foldl
          (fun r v => if fmtSprint v = lookupStrValue then insert m r else r) result
      | none => result
    lookupFilter src vecPath lookupStrValue rest result'

/-- `Lookup`: value equality check by hash probe plus re-read verification. -/
def Lookup (lookupValue : Jval) (expr : List (String × Jval)) (src : Col)
    (result : Finset Int) : Finset Int × Option QErr :=
  match mapGet expr "in" with
  | none => (result, some .missingIn)
  | some path =>
    match toVecPath path with
    | none => (result, some .notVectorIn)
    | some vecPath =>
      match parseLimit expr with
      | .error e => (result, some e)
      | .ok intLimit =>
        let lookupStrValue := fmtSprint lookupValue
        let lookupValueHash := StrHash lookupStrValue
        let scanPath := String.intercalate INDEX_PATH_SEP vecPath
        if scanPath ∈ src.indexPaths then
          let ht := src.hts (lookupValueHash % src.numParts) scanPath
          let vals := ht.get lookupValueHash intLimit
          (lookupFilter src vecPath lookupStrValue vals result, none)
        else (result, some (.unindexedPath scanPath))

/-- Innermost loop of `PathExistence`: insert each id of one chunk, counting
every insertion; when the counter reaches the limit, report `true` so the
whole scan stops (the Go code unlocks and returns there). -/
def peIds (lim : Int) : List Int → Finset Int → Int → Finset Int × Int × Bool
  | [], result, counter => (result, counter, false)
  | id :: rest, result, counter =>
    let result' := insert id result
    let counter' := counter + 1
    if counter' = lim then (result', counter', true)
    else peIds lim rest result' counter'

/-- Chunk loop of `PathExistence`: iterate chunk indexes of one partition. -/
def peChunks (ht : HashTable) (partDiv : Nat) (lim : Int) :
    List Nat → Finset Int → Int → Finset Int × Int × Bool
  | [], result, counter => (result, counter, false)
  | i :: rest, result, counter =>
    match peIds lim (ht.getPartition i partDiv) result counter with
    | (result', counter', true) => (result', counter', true)
    | (result', counter', false) => peChunks ht partDiv lim rest result' counter'

/-- Partition loop of `PathExistence`. -/
def peParts (src : Col) (jointPath : String) (partDiv : Nat) (lim : Int) :
    List Nat → Finset Int → Int → Finset Int × Int × Bool
  | [], result, counter => (result, counter, false)
  | p :: rest, result, counter =>
    match peChunks (src.hts p jointPath) partDiv lim (List.range partDiv) result counter with
    | (result', counter', true) => (result', counter', true)
    | (result', counter', false) => peParts src jointPath partDiv lim rest result' counter'

/-- `PathExistence`: value existence check by scanning every partition of
the index in chunks of `partDiv`, trusting the index (no re-read). -/
def PathExistence (hasPath : Jval) (expr : List (String × Jval)) (src : Col)
    (result : Finset Int) : Finset Int × Option QErr :=
  match toVecPath hasPath with
  | none => (result, some .notVectorHas)
  | some vecPath =>
    match parseLimit expr with
    | .error e => (result, some e)
    | .ok intLimit =>
      let jointPath := String.intercalate INDEX_PATH_SEP vecPath
      if jointPath ∈ src.indexPaths then
        let partDiv0 := src.approxDocCount / src.numParts / 4000
        let partDiv := if partDiv0 = 0 then partDiv0 + 1 else partDiv0
        ((peParts src jointPath partDiv intLimit (List.range src.numParts) result 0).1, none)
      else (result, some (.unindexedPath jointPath))

/-- The `int-to` (falling back to `int to`) extraction of `IntRange`. -/
def parseTo (expr : List (String × Jval)) : Except QErr Int :=
  match mapGet expr "int-to" with
  | some (.num q) => .ok (ratTrunc q)
  | some _ => .error .badIntTo
  | none =>
    match mapGet expr "int to" with
    | some (.num q) => .ok (ratTrunc q)
    | some _ => .error .badIntTo
    | none => .error .missingIntTo

/-- Inner docID loop of `IntRange`: before each insertion, break out of the
current probe's id list when a positive limit has been reached; otherwise
insert and count. -/
def irIds (lim : Int) : List Int → Finset Int → Int → Finset Int × Int
  | [], result, counter => (result, counter)
  | docID :: rest, result, counter =>
    if 0 < lim ∧ counter = lim then (result, counter)
    else irIds lim rest (insert docID result) (counter + 1)

/-- Per-value loop of `IntRange`: probe the index for each integer of the
walk order and fold the ids through `irIds`. -/
def irVals (src : Col) (htPath : String) (lim : Int) :
    List Int → Finset Int → Int → Finset Int × Int
  | [], result, counter => (result, counter)
  | v :: rest, result, counter =>
    let vals := hashScan src htPath (StrHash (toString v)) lim
    let step := irIds lim vals result counter
    irVals src htPath lim rest step.1 step.2

/-- The ascending walk `from, from+1, …, to` of the forward scan. -/
def ascRange (a b : Int) : List Int :=
  (List.range ((b - a).toNat + 1)).map (fun (i : Nat) => a + (i : Int))

/-- The descending walk `from, from-1, …, to` of the backward scan. -/
def descRange (a b : Int) : List Int :=
  (List.range ((a - b).toNat + 1)).map (fun (i : Nat) => a - (i : Int))

/-- `IntRange`: indexed integer-range scan.  Validation order follows the
source: `in` path, `limit`, `int-from`, `int-to`, then the indexed-path
check; the joined path uses a literal comma.  The large-range log warning
has no semantic effect and is omitted. -/
def IntRange (intFrom : Jval) (expr : List (String × Jval)) (src : Col)
    (result : Finset Int) : Finset Int × Option QErr :=
  match mapGet expr "in" with
  | none => (result, some .missingIn)
  | some path =>
    match toVecPath path with
    | none => (result, some .notVectorIn)
    | some vecPath =>
      match parseLimit expr with
      | .error e => (result, some e)
      | .ok intLimit =>
        match intFrom with
        | .num floatFrom =>
          let fromI := ratTrunc floatFrom
          match parseTo expr with
          | .error e => (result, some e)
          | .ok toI =>
            let htPath := String.intercalate "," vecPath
            if htPath ∈ src.indexPaths then
              if fromI < toI then
                ((irVals src htPath intLimit (ascRange fromI toI) result 0).1, none)
              else
                ((irVals src htPath intLimit (descRange fromI toI) result 0).1, none)
            else (result, some (.unindexedPath htPath))
        | _ => (result, some .badIntFrom)

/-- `EvalAllIDs`: put every live document id into the result. -/
def EvalAllIDs (src : Col) (result : Finset Int) : Finset Int :=
  src.docIDs.foldl (fun r id => insert id r) result

mutual

/-- `EvalQuery`: the recursive dispatch of the query processor.  A JSON
array is a union of sub-queries; the string `all` enumerates every id and
any other string must parse as a decimal document id; a mapping probes the
keys `eq`, `has`, `n`, `c`, `int-from`, `int from` in that order and the
first present key selects the operator; every other shape succeeds without
touching the result (the Go switch falls through to `return nil`). -/
def EvalQuery (q : Jval) (src : Col) (result : Finset Int) : Finset Int × Option QErr :=
  match q with
  | .arr exprs => EvalUnion exprs src result
  | .str expr =>
    if expr = "all" then (EvalAllIDs src result, none)
    else
      match parseIntGo expr with
      | none => (result, some (.notDocID expr))
      | some docID => (insert docID result, none)
  | .obj fields =>
    match h1 : mapGet fields "eq" with
    | some lookupValue => Lookup lookupValue fields src result
    | none =>
      match h2 : mapGet fields "has" with
      | some hasPath => PathExistence hasPath fields src result
      | none =>
        match h3 : mapGet fields "n" with
        | some subExprs => Intersect subExprs src result
        | none =>
          match h4 : mapGet fields "c" with
          | some subExprs => Complement subExprs src result
          | none =>
            match h5 : mapGet fields "int-from" with
            | some intFrom => IntRange intFrom fields src result
            | none =>
              match h6 : mapGet fields "int from" with
              | some intFrom => IntRange intFrom fields src result
              | none => (result, some .noOperation)
  | _ => (result, none)
termination_by sizeOf q
decreasing_by
  all_goals simp_wf
  all_goals try (have hlt := mapGet_sizeOf h3)
  all_goals try (have hlt := mapGet_sizeOf h4)
  all_goals try simp only [Jval.arr.sizeOf_spec, Jval.obj.sizeOf_spec] at *
  all_goals omega

/-- `EvalUnion`: evaluate each sub-query into the shared result,
stopping at the first error. -/
def EvalUnion (exprs : List Jval) (src : Col) (result : Finset Int) :
    Finset Int × Option QErr :=
  match exprs with
  | [] => (result, none)
  | subExpr :: rest =>
    match EvalQuery subExpr src result with
    | (result', some e) => (result', some e)
    | (result', none) => EvalUnion rest src result'
termination_by sizeOf exprs
decreasing_by
  all_goals simp_wf
  all_goals try simp only [List.cons.sizeOf_spec] at *
  all_goals omega

/-- `Intersect`: the `n` operator.  The operand must be a JSON array of
sub-queries; each is evaluated into a fresh sub-result. -/
def Intersect (subExprs : Jval) (src : Col) (result : Finset Int) :
    Finset Int × Option QErr :=
  match subExprs with
  | .arr qs => intersectLoop qs src result true
  | _ => (result, some .notVectorSub)
termination_by sizeOf subExprs
decreasing_by
  all_goals simp_wf
  all_goals try simp only [Jval.arr.sizeOf_spec] at *
  all_goals omega

/-- The child loop of `Intersect`: the first child's sub-result replaces
the accumulator wholesale; every further child intersects with it.  On a
child error the accumulator keeps its current value. -/
def intersectLoop (qs : List Jval) (src : Col) (result : Finset Int) (first : Bool) :
    Finset Int × Option QErr :=
  match qs with
  | [] => (result, none)
  | subExpr :: rest =>
    match EvalQuery subExpr src ∅ with
    | (_, some e) => (result, some e)
    | (subResult, none) =>
      if first then intersectLoop rest src subResult false
      else intersectLoop rest src (result ∩ subResult) false
termination_by sizeOf qs
decreasing_by
  all_goals simp_wf
  all_goals try simp only [List.cons.sizeOf_spec] at *
  all_goals omega

/-- `Complement`: the `c` operator.  The operand must be a JSON array of
sub-queries; each is evaluated into a fresh sub-result. -/
def Complement (subExprs : Jval) (src : Col) (result : Finset Int) :
    Finset Int × Option QErr :=
  match subExprs with
  | .arr qs => complementLoop qs src result
  | _ => (result, some .notVectorSub)
termination_by sizeOf subExprs
decreasing_by
  all_goals simp_wf
  all_goals try simp only [Jval.arr.sizeOf_spec] at *
  all_goals omega

/-- The child loop of `Complement`: after each child's sub-result `S`, the
accumulator `r` becomes the symmetric difference `(S \ r) ∪ (r \ S)`,
built exactly as in the source from the two one-sided filters. -/
def complementLoop (qs : List Jval) (src : Col) (result : Finset Int) :
    Finset Int × Option QErr :=
  match qs with
  | [] => (result, none)
  | subExpr :: rest =>
    match EvalQuery subExpr src ∅ with
    | (_, some e) => (result, some e)
    | (subResult, none) =>
      complementLoop rest src ((subResult \ result) ∪ (result \ subResult))
termination_by sizeOf qs
decreasing_by
  all_goals simp_wf
  all_goals try simp only [List.cons.sizeOf_spec] at *
  all_goals omega

end

/-! ### Concrete collaborators for counterexamples and witnesses -/

/-- A hash table with no entries. -/
def emptyHT : HashTable := ⟨fun _ _ => [], fun _ _ => []⟩

/-- An empty one-partition collection without indexes. -/
def col0 : Col := ⟨[], fun _ => none, 1, [], fun _ _ => emptyHT, 0⟩

/-! ### Dispatch lemmas: one per arm of the `EvalQuery` switch -/

theorem evalQuery_arr (qs : List Jval) (src : Col) (r : Finset Int) :
    EvalQuery (.arr qs) src r = EvalUnion qs src r := by
  simp [EvalQuery]

theorem evalQuery_all (src : Col) (r : Finset Int) :
    EvalQuery (.str "all") src r = (EvalAllIDs src r, none) := by
  simp [EvalQuery]

theorem evalQuery_str_docID {s : String} {docID : Int} (hs : s ≠ "all")
    (h : parseIntGo s = some docID) (src : Col) (r : Finset Int) :
    EvalQuery (.str s) src r = (insert docID r, none) := by
  simp [EvalQuery, hs, h]

theorem evalQuery_str_bad {s : String} (hs : s ≠ "all")
    (h : parseIntGo s = none) (src : Col) (r : Finset Int) :
    EvalQuery (.str s) src r = (r, some (.notDocID s)) := by
  simp [EvalQuery, hs, h]

theorem evalQuery_eq {fields : List (String × Jval)} {v : Jval}
    (h1 : mapGet fields "eq" = some v) (src : Col) (r : Finset Int) :
    EvalQuery (.obj fields) src r = Lookup v fields src r := by
  simp only [EvalQuery]
  repeat' split
  all_goals simp_all

theorem evalQuery_has {fields : List (String × Jval)} {v : Jval}
    (h1 : mapGet fields "eq" = none) (h2 : mapGet fields "has" = some v)
    (src : Col) (r : Finset Int) :
    EvalQuery (.obj fields) src r = PathExistence v fields src r := by
  simp only [EvalQuery]
  repeat' split
  all_goals simp_all

theorem evalQuery_n {fields : List (String × Jval)} {v : Jval}
    (h1 : mapGet fields "eq" = none) (h2 : mapGet fields "has" = none)
    (h3 : mapGet fields "n" = some v) (src : Col) (r : Finset Int) :
    EvalQuery (.obj fields) src r = Intersect v src r := by
  simp only [EvalQuery]
  repeat' split
  all_goals simp_all

theorem evalQuery_c {fields : List (String × Jval)} {v : Jval}
    (h1 : mapGet fields "eq" = none) (h2 : mapGet fields "has" = none)
    (h3 : mapGet fields "n" = none) (h4 : mapGet fields "c" = some v)
    (src : Col) (r : Finset Int) :
    EvalQuery (.obj fields) src r = Complement v src r := by
  simp only [EvalQuery]
  repeat' split
  all_goals simp_all

theorem evalQuery_intFrom {fields : List (String × Jval)} {v : Jval}
    (h1 : mapGet fields "eq" = none) (h2 : mapGet fields "has" = none)
    (h3 : mapGet fields "n" = none) (h4 : mapGet fields "c" = none)
    (h5 : mapGet fields "int-from" = some v) (src : Col) (r : Finset Int) :
    EvalQuery (.obj fields) src r = IntRange v fields src r := by
  simp only [EvalQuery]
  repeat' split
  all_goals simp_all

theorem evalQuery_intFromSpace {fields : List (String × Jval)} {v : Jval}
    (h1 : mapGet fields "eq" = none) (h2 : mapGet fields "has" = none)
    (h3 : mapGet fields "n" = none) (h4 : mapGet fields "c" = none)
    (h5 : mapGet fields "int-from" = none) (h6 : mapGet fields "int from" = some v)
    (src : Col) (r : Finset Int) :
    EvalQuery (.obj fields) src r = IntRange v fields src r := by
  simp only [EvalQuery]
  repeat' split
  all_goals simp_all

theorem evalQuery_noOp {fields : List (String × Jval)}
    (h1 : mapGet fields "eq" = none) (h2 : mapGet fields "has" = none)
    (h3 : mapGet fields "n" = none) (h4 : mapGet fields "c" = none)
    (h5 : mapGet fields "int-from" = none) (h6 : mapGet fields "int from" = none)
    (src : Col) (r : Finset Int) :
    EvalQuery (.obj fields) src r = (r, some .noOperation) := by
  simp only [EvalQuery]
  repeat' split
  all_goals simp_all

theorem evalQuery_null (src : Col) (r : Finset Int) :
    EvalQuery .null src r = (r, none) := by
  simp [EvalQuery]

theorem evalQuery_bool (b : Bool) (src : Col) (r : Finset Int) :
    EvalQuery (.bool b) src r = (r, none) := by
  simp [EvalQuery]

theorem evalQuery_num (q : ℚ) (src : Col) (r : Finset Int) :
    EvalQuery (.num q) src r = (r, none) := by
  simp [EvalQuery]

/-! ### Characterizations of the loop helpers -/

theorem evalAllIDs_eq (src : Col) (r : Finset Int) :
    EvalAllIDs src r = r ∪ src.docIDs.toFinset := by
  unfold EvalAllIDs
  induction src.docIDs generalizing r with
  | nil => simp
  | cons a l ih =>
    simp only [List.foldl_cons, ih, List.toFinset_cons]
    ext x
    simp only [Finset.mem_union, Finset.mem_insert, List.mem_toFinset]
    tauto

/-- Whether `Lookup` retains candidate `m`: the document reads back and some
leaf of the resolved path stringifies to the lookup string. -/
def lookupMatches (src : Col) (vecPath : List String) (lookupStrValue : String)
    (m : Int) : Bool :=
  match src.read m with
  | some doc => (GetIn doc vecPath).any fun v => fmtSprint v == lookupStrValue
  | none => false

theorem lookupFilter_eq (src : Col) (vecPath : List String) (lookupStrValue : String)
    (vals : List Int) (r : Finset Int) :
    lookupFilter src vecPath lookupStrValue vals r =
      r ∪ (vals.filter (lookupMatches src vecPath lookupStrValue)).toFinset := by
  induction vals generalizing r with
  | nil => simp [lookupFilter]
  | cons m rest ih =>
    have hfold : ∀ (l : List Jval) (acc : Finset Int),
        l.foldl (fun r' v => if fmtSprint v = lookupStrValue then insert m r' else r') acc =
          if l.any (fun v => fmtSprint v == lookupStrValue) then insert m acc else acc := by
      intro l
      induction l with
      | nil => simp
      | cons v vs ihv =>
        intro acc
        by_cases hv : fmtSprint v = lookupStrValue
        · simp [List.foldl_cons, List.any_cons, hv, ihv, Finset.insert_idem]
        · simp [List.foldl_cons, List.any_cons, hv, ihv]
    rcases hr : src.read m with _ | doc
    · simp [lookupFilter, hr, ih, List.filter_cons, lookupMatches]
    · simp only [lookupFilter, hr, ih]
      rw [hfold]
      by_cases hm : (GetIn doc vecPath).any (fun v => fmtSprint v == lookupStrValue)
      · simp only [hm, if_true, List.filter_cons, lookupMatches, hr, List.toFinset_cons]
        ext x
        simp only [Finset.mem_union, Finset.mem_insert, List.mem_toFinset]
        tauto
      · simp [hm, List.filter_cons, lookupMatches, hr]

theorem parseLimit_num {expr : List (String × Jval)} {q : ℚ}
    (h : mapGet expr "limit" = some (.num q)) : parseLimit expr = .ok (ratTrunc q) := by
  simp [parseLimit, h]

theorem parseLimit_absent {expr : List (String × Jval)}
    (h : mapGet expr "limit" = none) : parseLimit expr = .ok 0 := by
  simp [parseLimit, h]

theorem parseTo_num {expr : List (String × Jval)} {q : ℚ}
    (h : mapGet expr "int-to" = some (.num q)) : parseTo expr = .ok (ratTrunc q) := by
  simp [parseTo, h]

theorem ratTrunc_intCast (n : Int) : ratTrunc (n : ℚ) = n := by
  simp [ratTrunc, Rat.num_intCast, Rat.den_intCast, Int.tdiv_one]

theorem fmtSprint_str (s : String) : fmtSprint (.str s) = s := by
  simp [fmtSprint]

theorem fmtSprint_intCast (n : Int) : fmtSprint (.num (n : ℚ)) = toString n := by
  simp [fmtSprint, fmtNum, Rat.den_intCast, Rat.num_intCast]

/-- Success shape of `Lookup` on an indexed vector path. -/
theorem Lookup_indexed {expr : List (String × Jval)} {pathElems : List Jval}
    {lim : Int} (v : Jval) (src : Col) (r : Finset Int)
    (hIn : mapGet expr "in" = some (.arr pathElems))
    (hLim : parseLimit expr = .ok lim)
    (hIdx : String.intercalate INDEX_PATH_SEP (pathElems.map fmtSprint) ∈ src.indexPaths) :
    Lookup v expr src r =
      (lookupFilter src (pathElems.map fmtSprint) (fmtSprint v)
        (hashScan src (String.intercalate INDEX_PATH_SEP (pathElems.map fmtSprint))
          (StrHash (fmtSprint v)) lim) r, none) := by
  simp [Lookup, hIn, toVecPath, hLim, hIdx, hashScan]

/-- Failure shape of `Lookup` on an unindexed vector path. -/
theorem Lookup_unindexed {expr : List (String × Jval)} {pathElems : List Jval}
    {lim : Int} (v : Jval) (src : Col) (r : Finset Int)
    (hIn : mapGet expr "in" = some (.arr pathElems))
    (hLim : parseLimit expr = .ok lim)
    (hIdx : String.intercalate INDEX_PATH_SEP (pathElems.map fmtSprint) ∉ src.indexPaths) :
    Lookup v expr src r =
      (r, some (.unindexedPath (String.intercalate INDEX_PATH_SEP (pathElems.map fmtSprint)))) := by
  simp [Lookup, hIn, toVecPath, hLim, hIdx]

/-- Success shape of `PathExistence` on an indexed vector path. -/
theorem PathExistence_indexed {expr : List (String × Jval)} {pathElems : List Jval}
    {lim : Int} (src : Col) (r : Finset Int)
    (hLim : parseLimit expr = .ok lim)
    (hIdx : String.intercalate INDEX_PATH_SEP (pathElems.map fmtSprint) ∈ src.indexPaths) :
    PathExistence (.arr pathElems) expr src r =
      ((peParts src (String.intercalate INDEX_PATH_SEP (pathElems.map fmtSprint))
          (if src.approxDocCount / src.numParts / 4000 = 0 then
            src.approxDocCount / src.numParts / 4000 + 1
          else src.approxDocCount / src.numParts / 4000)
          lim (List.range src.numParts) r 0).1, none) := by
  simp [PathExistence, toVecPath, hLim, hIdx]

/-- Failure shape of `PathExistence` on an unindexed vector path. -/
theorem PathExistence_unindexed {expr : List (String × Jval)} {pathElems : List Jval}
    {lim : Int} (src : Col) (r : Finset Int)
    (hLim : parseLimit expr = .ok lim)
    (hIdx : String.intercalate INDEX_PATH_SEP (pathElems.map fmtSprint) ∉ src.indexPaths) :
    PathExistence (.arr pathElems) expr src r =
      (r, some (.unindexedPath (String.intercalate INDEX_PATH_SEP (pathElems.map fmtSprint)))) := by
  simp [PathExistence, toVecPath, hLim, hIdx]

/-- Success shape of `IntRange` on an indexed vector path. -/
theorem IntRange_indexed {expr : List (String × Jval)} {pathElems : List Jval}
    {lim toI : Int} {floatFrom : ℚ} (src : Col) (r : Finset Int)
    (hIn : mapGet expr "in" = some (.arr pathElems))
    (hLim : parseLimit expr = .ok lim)
    (hTo : parseTo expr = .ok toI)
    (hIdx : String.intercalate "," (pathElems.map fmtSprint) ∈ src.indexPaths) :
    IntRange (.num floatFrom) expr src r =
      ((irVals src (String.intercalate "," (pathElems.map fmtSprint)) lim
        (if ratTrunc floatFrom < toI then ascRange (ratTrunc floatFrom) toI
          else descRange (ratTrunc floatFrom) toI) r 0).1, none) := by
  by_cases hlt : ratTrunc floatFrom < toI <;>
    simp [IntRange, hIn, toVecPath, hLim, hTo, hIdx, hlt]

/-- Failure shape of `IntRange` on an unindexed vector path. -/
theorem IntRange_unindexed {expr : List (String × Jval)} {pathElems : List Jval}
    {lim toI : Int} {floatFrom : ℚ} (src : Col) (r : Finset Int)
    (hIn : mapGet expr "in" = some (.arr pathElems))
    (hLim : parseLimit expr = .ok lim)
    (hTo : parseTo expr = .ok toI)
    (hIdx : String.intercalate "," (pathElems.map fmtSprint) ∉ src.indexPaths) :
    IntRange (.num floatFrom) expr src r =
      (r, some (.unindexedPath (String.intercalate "," (pathElems.map fmtSprint)))) := by
  simp [IntRange, hIn, toVecPath, hLim, hTo, hIdx]

/-! ### Additivity: each scan adds a set of ids that does not depend on the
incoming accumulator -/

theorem peIds_shape (lim : Int) (ids : List Int) :
    ∀ c : Int, ∃ A c' d, ∀ s, peIds lim ids s c = (s ∪ A, c', d) := by
  induction ids with
  | nil => exact fun c => ⟨∅, c, false, fun s => by simp [peIds]⟩
  | cons id rest ih =>
    intro c
    by_cases hc : c + 1 = lim
    · refine ⟨{id}, c + 1, true, fun s => ?_⟩
      simp only [peIds, hc, if_pos]
      refine Prod.ext ?_ rfl
      ext x
      simp only [Finset.mem_insert, Finset.mem_union, Finset.mem_singleton]
      tauto
    · obtain ⟨A, c', d, hA⟩ := ih (c + 1)
      refine ⟨insert id A, c', d, fun s => ?_⟩
      simp [peIds, hc, hA (insert id s), Finset.insert_union, Finset.union_insert]

theorem peChunks_shape (ht : HashTable) (partDiv : Nat) (lim : Int) (chunks : List Nat) :
    ∀ c : Int, ∃ A c' d, ∀ s, peChunks ht partDiv lim chunks s c = (s ∪ A, c', d) := by
  induction chunks with
  | nil => exact fun c => ⟨∅, c, false, fun s => by simp [peChunks]⟩
  | cons i rest ih =>
    intro c
    obtain ⟨A, c', d, hA⟩ := peIds_shape lim (ht.getPartition i partDiv) c
    cases d with
    | true => exact ⟨A, c', true, fun s => by simp [peChunks, hA s]⟩
    | false =>
      obtain ⟨A₂, c₂, d₂, hA₂⟩ := ih c'
      refine ⟨A ∪ A₂, c₂, d₂, fun s => ?_⟩
      simp [peChunks, hA s, hA₂ (s ∪ A), Finset.union_assoc]

theorem peParts_shape (src : Col) (jointPath : String) (partDiv : Nat) (lim : Int)
    (parts : List Nat) :
    ∀ c : Int, ∃ A c' d, ∀ s, peParts src jointPath partDiv lim parts s c = (s ∪ A, c', d) := by
  induction parts with
  | nil => exact fun c => ⟨∅, c, false, fun s => by simp [peParts]⟩
  | cons p rest ih =>
    intro c
    obtain ⟨A, c', d, hA⟩ :=
      peChunks_shape (src.hts p jointPath) partDiv lim (List.range partDiv) c
    cases d with
    | true => exact ⟨A, c', true, fun s => by simp [peParts, hA s]⟩
    | false =>
      obtain ⟨A₂, c₂, d₂, hA₂⟩ := ih c'
      refine ⟨A ∪ A₂, c₂, d₂, fun s => ?_⟩
      simp [peParts, hA s, hA₂ (s ∪ A), Finset.union_assoc]

theorem irIds_shape (lim : Int) (ids : List Int) :
    ∀ c : Int, ∃ A c', ∀ s, irIds lim ids s c = (s ∪ A, c') := by
  induction ids with
  | nil => exact fun c => ⟨∅, c, fun s => by simp [irIds]⟩
  | cons id rest ih =>
    intro c
    by_cases hc : 0 < lim ∧ c = lim
    · exact ⟨∅, c, fun s => by simp [irIds, hc]⟩
    · obtain ⟨A, c', hA⟩ := ih (c + 1)
      refine ⟨insert id A, c', fun s => ?_⟩
      simp [irIds, hc, hA (insert id s), Finset.insert_union, Finset.union_insert]

theorem irVals_shape (src : Col) (htPath : String) (lim : Int) (vals : List Int) :
    ∀ c : Int, ∃ A c', ∀ s, irVals src htPath lim vals s c = (s ∪ A, c') := by
  induction vals with
  | nil => exact fun c => ⟨∅, c, fun s => by simp [irVals]⟩
  | cons v rest ih =>
    intro c
    obtain ⟨A, c', hA⟩ := irIds_shape lim (hashScan src htPath (StrHash (toString v)) lim) c
    obtain ⟨A₂, c₂, hA₂⟩ := ih c'
    refine ⟨A ∪ A₂, c₂, fun s => ?_⟩
    simp [irVals, hA s, hA₂ (s ∪ A), Finset.union_assoc]

/-! ### Counter bounds: positive limits cap the number of insertions -/

theorem peIds_bound (lim : Int) (ids : List Int) :
    ∀ c : Int, ∀ s r' c' d, 0 < lim → c < lim → peIds lim ids s c = (r', c', d) →
      c ≤ c' ∧ (d = true → c' = lim) ∧ (d = false → c' < lim) ∧
        r'.card ≤ s.card + (c' - c).toNat := by
  induction ids with
  | nil =>
    intro c s r' c' d _ hc h
    simp only [peIds, Prod.mk.injEq] at h
    obtain ⟨h1, h2, h3⟩ := h
    subst h1; subst h2; subst h3
    refine ⟨le_refl _, by simp, fun _ => hc, by simp⟩
  | cons id rest ih =>
    intro c s r' c' d hlim hc h
    by_cases hstop : c + 1 = lim
    · simp only [peIds, hstop, if_pos, Prod.mk.injEq] at h
      obtain ⟨h1, h2, h3⟩ := h
      subst h1; subst h2
      have hcard := Finset.card_insert_le id s
      refine ⟨by omega, fun _ => hstop.symm ▸ rfl, fun hd => by simp [hd] at h3, ?_⟩
      omega
    · simp only [peIds, hstop, if_neg, if_false] at h
      have hlt : c + 1 < lim := by omega
      obtain ⟨h1, h2, h3, h4⟩ := ih (c + 1) (insert id s) r' c' d hlim hlt h
      have hcard := Finset.card_insert_le id s
      exact ⟨by omega, h2, h3, by omega⟩

theorem peChunks_bound (ht : HashTable) (partDiv : Nat) (lim : Int) (chunks : List Nat) :
    ∀ c : Int, ∀ s r' c' d, 0 < lim → c < lim →
      peChunks ht partDiv lim chunks s c = (r', c', d) →
      c ≤ c' ∧ (d = true → c' = lim) ∧ (d = false → c' < lim) ∧
        r'.card ≤ s.card + (c' - c).toNat := by
  induction chunks with
  | nil =>
    intro c s r' c' d _ hc h
    simp only [peChunks, Prod.mk.injEq] at h
    obtain ⟨h1, h2, h3⟩ := h
    subst h1; subst h2; subst h3
    refine ⟨le_refl _, by simp, fun _ => hc, by simp⟩
  | cons i rest ih =>
    intro c s r' c' d hlim hc h
    rcases hi : peIds lim (ht.getPartition i partDiv) s c with ⟨r₁, c₁, d₁⟩
    obtain ⟨hb1, hb2, hb3, hb4⟩ := peIds_bound lim _ c s r₁ c₁ d₁ hlim hc hi
    cases d₁ with
    | true =>
      simp only [peChunks, hi] at h
      obtain ⟨h1, h2, h3⟩ := Prod.mk.injEq .. ▸ h
      cases h
      exact ⟨hb1, fun _ => hb2 rfl, by simp, hb4⟩
    | false =>
      simp only [peChunks, hi] at h
      obtain ⟨h1, h2, h3, h4⟩ := ih c₁ r₁ r' c' d hlim (hb3 rfl) h
      exact ⟨by omega, h2, h3, by omega⟩

theorem peParts_bound (src : Col) (jointPath : String) (partDiv : Nat) (lim : Int)
    (parts : List Nat) :
    ∀ c : Int, ∀ s r' c' d, 0 < lim → c < lim →
      peParts src jointPath partDiv lim parts s c = (r', c', d) →
      c ≤ c' ∧ (d = true → c' = lim) ∧ (d = false → c' < lim) ∧
        r'.card ≤ s.card + (c' - c).toNat := by
  induction parts with
  | nil =>
    intro c s r' c' d _ hc h
    simp only [peParts, Prod.mk.injEq] at h
    obtain ⟨h1, h2, h3⟩ := h
    subst h1; subst h2; subst h3
    refine ⟨le_refl _, by simp, fun _ => hc, by simp⟩
  | cons p rest ih =>
    intro c s r' c' d hlim hc h
    rcases hi : peChunks (src.hts p jointPath) partDiv lim (List.range partDiv) s c
      with ⟨r₁, c₁, d₁⟩
    obtain ⟨hb1, hb2, hb3, hb4⟩ := peChunks_bound _ _ lim _ c s r₁ c₁ d₁ hlim hc hi
    cases d₁ with
    | true =>
      simp only [peParts, hi] at h
      cases h
      exact ⟨hb1, fun _ => hb2 rfl, by simp, hb4⟩
    | false =>
      simp only [peParts, hi] at h
      obtain ⟨h1, h2, h3, h4⟩ := ih c₁ r₁ r' c' d hlim (hb3 rfl) h
      exact ⟨by omega, h2, h3, by omega⟩

theorem irIds_bound (lim : Int) (ids : List Int) :
    ∀ c : Int, ∀ s r' c', 0 < lim → c ≤ lim → irIds lim ids s c = (r', c') →
      c ≤ c' ∧ c' ≤ lim ∧ r'.card ≤ s.card + (c' - c).toNat := by
  induction ids with
  | nil =>
    intro c s r' c' _ hc h
    simp only [irIds, Prod.mk.injEq] at h
    obtain ⟨h1, h2⟩ := h
    subst h1; subst h2
    exact ⟨le_refl _, hc, by simp⟩
  | cons id rest ih =>
    intro c s r' c' hlim hc h
    by_cases hstop : 0 < lim ∧ c = lim
    · simp only [irIds] at h
      rw [if_pos hstop] at h
      cases h
      exact ⟨le_refl _, hc, by simp⟩
    · simp only [irIds] at h
      rw [if_neg hstop] at h
      have hne : c ≠ lim := fun he => hstop ⟨hlim, he⟩
      have hlt : c + 1 ≤ lim := by omega
      obtain ⟨h1, h2, h3⟩ := ih (c + 1) (insert id s) r' c' hlim hlt h
      have hcard := Finset.card_insert_le id s
      exact ⟨by omega, h2, by omega⟩

theorem irVals_bound (src : Col) (htPath : String) (lim : Int) (vals : List Int) :
    ∀ c : Int, ∀ s r' c', 0 < lim → c ≤ lim → irVals src htPath lim vals s c = (r', c') →
      c ≤ c' ∧ c' ≤ lim ∧ r'.card ≤ s.card + (c' - c).toNat := by
  induction vals with
  | nil =>
    intro c s r' c' _ hc h
    simp only [irVals, Prod.mk.injEq] at h
    obtain ⟨h1, h2⟩ := h
    subst h1; subst h2
    exact ⟨le_refl _, hc, by simp⟩
  | cons v rest ih =>
    intro c s r' c' hlim hc h
    rcases hi : irIds lim (hashScan src htPath (StrHash (toString v)) lim) s c with ⟨r₁, c₁⟩
    obtain ⟨hb1, hb2, hb3⟩ := irIds_bound lim _ c s r₁ c₁ hlim hc hi
    simp only [irVals, hi] at h
    obtain ⟨h1, h2, h3⟩ := ih c₁ r₁ r' c' hlim hb2 h
    exact ⟨by omega, h2, by omega⟩

/-! ### No-limit runs insert every probed id -/

/-- The union of all ids returned by probing every value of a walk. -/
def probeUnion (src : Col) (htPath : String) (lim : Int) : List Int → Finset Int
  | [] => ∅
  | v :: rest =>
    (hashScan src htPath (StrHash (toString v)) lim).toFinset ∪ probeUnion src htPath lim rest

theorem irIds_noLimit (ids : List Int) :
    ∀ c s, irIds 0 ids s c = (s ∪ ids.toFinset, c + ids.length) := by
  induction ids with
  | nil => intro c s; simp [irIds]
  | cons id rest ih =>
    intro c s
    simp only [irIds, lt_irrefl, false_and, if_false, ih (c + 1) (insert id s),
      List.toFinset_cons, List.length_cons]
    refine Prod.ext ?_ (by simp; omega)
    simp only [Finset.insert_union, Finset.union_insert]

theorem irVals_noLimit (src : Col) (htPath : String) (vals : List Int) :
    ∀ c s, (irVals src htPath 0 vals s c).1 = s ∪ probeUnion src htPath 0 vals := by
  induction vals with
  | nil => intro c s; simp [irVals, probeUnion]
  | cons v rest ih =>
    intro c s
    simp only [irVals, irIds_noLimit, ih, probeUnion, Finset.union_assoc]

/-! ### Accumulator stability

Every operator except the complement fold either adds a fixed id set to the
incoming accumulator or replaces it by a fixed pair; both function shapes
are idempotent and closed under the union fold, which is what makes the
union of two copies of a complement-free query collapse. -/

/-- The two accumulator shapes of complement-free evaluation: add a fixed
set (keeping the incoming error behaviour fixed), or ignore the incoming
accumulator entirely. -/
def StableFn (f : Finset Int → Finset Int × Option QErr) : Prop :=
  (∃ A e, ∀ s, f s = (s ∪ A, e)) ∨ (∃ p, ∀ s, f s = p)

theorem stable_of_plain (e : Option QErr) : StableFn (fun s => (s, e)) :=
  .inl ⟨∅, e, fun s => by simp⟩

theorem lookup_stable (v : Jval) (expr : List (String × Jval)) (src : Col) :
    StableFn (fun s => Lookup v expr src s) := by
  rcases hIn : mapGet expr "in" with _ | path
  · exact .inl ⟨∅, some .missingIn, fun s => by simp [Lookup, hIn]⟩
  rcases hvp : toVecPath path with _ | vecPath
  · exact .inl ⟨∅, some .notVectorIn, fun s => by simp [Lookup, hIn, hvp]⟩
  rcases hpl : parseLimit expr with e | lim
  · exact .inl ⟨∅, some e, fun s => by simp [Lookup, hIn, hvp, hpl]⟩
  by_cases hidx : String.intercalate INDEX_PATH_SEP vecPath ∈ src.indexPaths
  · refine .inl ⟨(((src.hts (StrHash (fmtSprint v) % src.numParts)
        (String.intercalate INDEX_PATH_SEP vecPath)).get (StrHash (fmtSprint v))
        lim).filter (lookupMatches src vecPath (fmtSprint v))).toFinset, none, fun s => ?_⟩
    simp only [Lookup, hIn, hvp, hpl, hidx, if_pos, lookupFilter_eq]
  · exact .inl ⟨∅, some (.unindexedPath (String.intercalate INDEX_PATH_SEP vecPath)),
      fun s => by simp [Lookup, hIn, hvp, hpl, hidx]⟩

theorem pathExistence_stable (v : Jval) (expr : List (String × Jval)) (src : Col) :
    StableFn (fun s => PathExistence v expr src s) := by
  rcases hvp : toVecPath v with _ | vecPath
  · exact .inl ⟨∅, some .notVectorHas, fun s => by simp [PathExistence, hvp]⟩
  rcases hpl : parseLimit expr with e | lim
  · exact .inl ⟨∅, some e, fun s => by simp [PathExistence, hvp, hpl]⟩
  by_cases hidx : String.intercalate INDEX_PATH_SEP vecPath ∈ src.indexPaths
  · obtain ⟨A, c', d, hA⟩ := peParts_shape src (String.intercalate INDEX_PATH_SEP vecPath)
      (if src.approxDocCount / src.numParts / 4000 = 0 then
        src.approxDocCount / src.numParts / 4000 + 1
      else src.approxDocCount / src.numParts / 4000) lim (List.range src.numParts) 0
    refine .inl ⟨A, none, fun s => ?_⟩
    simp only [PathExistence, hvp, hpl, hidx, if_pos, hA s]
  · exact .inl ⟨∅, some (.unindexedPath (String.intercalate INDEX_PATH_SEP vecPath)),
      fun s => by simp [PathExistence, hvp, hpl, hidx]⟩

theorem intRange_stable (v : Jval) (expr : List (String × Jval)) (src : Col) :
    StableFn (fun s => IntRange v expr src s) := by
  rcases hIn : mapGet expr "in" with _ | path
  · exact .inl ⟨∅, some .missingIn, fun s => by simp [IntRange, hIn]⟩
  rcases hvp : toVecPath path with _ | vecPath
  · exact .inl ⟨∅, some .notVectorIn, fun s => by simp [IntRange, hIn, hvp]⟩
  rcases hpl : parseLimit expr with e | lim
  · exact .inl ⟨∅, some e, fun s => by simp [IntRange, hIn, hvp, hpl]⟩
  rcases v with _ | b | floatFrom | s₀ | elems | fields
  case num =>
    rcases hto : parseTo expr with e | toI
    · exact .inl ⟨∅, some e, fun s => by simp [IntRange, hIn, hvp, hpl, hto]⟩
    by_cases hidx : String.intercalate "," vecPath ∈ src.indexPaths
    · by_cases hlt : ratTrunc floatFrom < toI
      · obtain ⟨A, c', hA⟩ := irVals_shape src (String.intercalate "," vecPath) lim
          (ascRange (ratTrunc floatFrom) toI) 0
        refine .inl ⟨A, none, fun s => ?_⟩
        simp only [IntRange, hIn, hvp, hpl, hto, hidx, if_pos, hlt, if_true, hA s]
      · obtain ⟨A, c', hA⟩ := irVals_shape src (String.intercalate "," vecPath) lim
          (descRange (ratTrunc floatFrom) toI) 0
        refine .inl ⟨A, none, fun s => ?_⟩
        simp only [IntRange, hIn, hvp, hpl, hto, hidx, if_pos, hlt, if_false, hA s]
    · exact .inl ⟨∅, some (.unindexedPath (String.intercalate "," vecPath)),
        fun s => by simp [IntRange, hIn, hvp, hpl, hto, hidx]⟩
  all_goals exact .inl ⟨∅, some .badIntFrom, fun s => by simp [IntRange, hIn, hvp, hpl]⟩

theorem intersect_stable (subExprs : Jval) (src : Col) :
    StableFn (fun s => Intersect subExprs src s) := by
  rcases subExprs with _ | b | q | s₀ | elems | fields
  case arr =>
    rcases elems with _ | ⟨q₁, rest⟩
    · exact .inl ⟨∅, none, fun s => by simp [Intersect, intersectLoop]⟩
    rcases hq : EvalQuery q₁ src ∅ with ⟨p₁, eo⟩
    rcases eo with _ | e
    · exact .inr ⟨intersectLoop rest src p₁ false, fun s => by
        simp [Intersect, intersectLoop, hq]⟩
    · exact .inl ⟨∅, some e, fun s => by simp [Intersect, intersectLoop, hq]⟩
  all_goals exact .inl ⟨∅, some .notVectorSub, fun s => by simp [Intersect]⟩

theorem evalUnion_stable (src : Col) (qs : List Jval)
    (h : ∀ q ∈ qs, StableFn (fun s => EvalQuery q src s)) :
    StableFn (fun s => EvalUnion qs src s) := by
  induction qs with
  | nil => exact .inl ⟨∅, none, fun s => by simp [EvalUnion]⟩
  | cons q rest ih =>
    have hq := h q (by simp)
    have hrest := ih fun q' hmem => h q' (by simp [hmem])
    rcases hq with ⟨A, e, hA⟩ | ⟨p, hp⟩
    · rcases e with _ | e₀
      · rcases hrest with ⟨A₂, e₂, hA₂⟩ | ⟨p₂, hp₂⟩
        · exact .inl ⟨A ∪ A₂, e₂, fun s => by
            simp [EvalUnion, hA s, hA₂ (s ∪ A), Finset.union_assoc]⟩
        · exact .inr ⟨p₂, fun s => by simp [EvalUnion, hA s, hp₂ (s ∪ A)]⟩
      · exact .inl ⟨A, some e₀, fun s => by simp [EvalUnion, hA s]⟩
    · rcases p with ⟨B, eo⟩
      rcases eo with _ | e₀
      · exact .inr ⟨EvalUnion rest src B, fun s => by simp [EvalUnion, hp s]⟩
      · exact .inr ⟨(B, some e₀), fun s => by simp [EvalUnion, hp s]⟩

/-- A query is complement-free at the top when no `c` operator is reachable
from the root through ordered-sequence (union) nesting alone.  Complements
nested under `n` are harmless: those children run on fresh accumulators. -/
def cFreeTop : Jval → Bool
  | .arr qs => qs.attach.all fun q => cFreeTop q.1
  | .obj fields =>
    !((mapGet fields "eq").isNone && (mapGet fields "has").isNone &&
      (mapGet fields "n").isNone && (mapGet fields "c").isSome)
  | _ => true
termination_by q => sizeOf q
decreasing_by
  have h1 := List.sizeOf_lt_of_mem q.2
  simp only [Jval.arr.sizeOf_spec]
  omega

theorem cFreeTop_arr {qs : List Jval} (h : cFreeTop (.arr qs) = true) :
    ∀ q ∈ qs, cFreeTop q = true := by
  intro q hmem
  rw [cFreeTop] at h
  simpa using List.all_eq_true.1 h ⟨q, hmem⟩ (List.mem_attach _ _)

theorem cFreeTop_obj {fields : List (String × Jval)} (h : cFreeTop (.obj fields) = true)
    (h1 : mapGet fields "eq" = none) (h2 : mapGet fields "has" = none)
    (h3 : mapGet fields "n" = none) : mapGet fields "c" = none := by
  rw [cFreeTop] at h
  rcases hc : mapGet fields "c" with _ | v
  · rfl
  · simp [h1, h2, h3, hc] at h

theorem evalQuery_stable (src : Col) :
    ∀ (n : Nat) (q : Jval), sizeOf q < n → cFreeTop q = true →
      StableFn (fun s => EvalQuery q src s) := by
  intro n
  induction n with
  | zero => exact fun q hq => absurd hq (by omega)
  | succ n ih =>
    intro q hq hfree
    rcases q with _ | b | q₀ | s₀ | qs | fields
    · have heq : (fun s => EvalQuery .null src s) = fun s => (s, none) :=
        funext fun s => evalQuery_null src s
      rw [heq]; exact stable_of_plain none
    · have heq : (fun s => EvalQuery (.bool b) src s) = fun s => (s, none) :=
        funext fun s => evalQuery_bool b src s
      rw [heq]; exact stable_of_plain none
    · have heq : (fun s => EvalQuery (.num q₀) src s) = fun s => (s, none) :=
        funext fun s => evalQuery_num q₀ src s
      rw [heq]; exact stable_of_plain none
    · by_cases hall : s₀ = "all"
      · subst hall
        refine .inl ⟨src.docIDs.toFinset, none, fun s => ?_⟩
        simp only [evalQuery_all, evalAllIDs_eq]
      · rcases hp : parseIntGo s₀ with _ | docID
        · exact .inl ⟨∅, some (.notDocID s₀), fun s => by
            simp [evalQuery_str_bad hall hp]⟩
        · refine .inl ⟨{docID}, none, fun s => ?_⟩
          simp only [evalQuery_str_docID hall hp]
          refine Prod.ext ?_ rfl
          rw [Finset.insert_eq, Finset.union_comm]
    · have heq : (fun s => EvalQuery (.arr qs) src s) = fun s => EvalUnion qs src s :=
        funext fun s => evalQuery_arr qs src s
      rw [heq]
      refine evalUnion_stable src qs fun q' hmem => ?_
      have hsz : sizeOf q' < n := by
        have h1 := List.sizeOf_lt_of_mem hmem
        simp only [Jval.arr.sizeOf_spec] at hq
        omega
      exact ih q' hsz (cFreeTop_arr hfree q' hmem)
    · rcases h1 : mapGet fields "eq" with _ | v
      case some =>
        have heq : (fun s => EvalQuery (.obj fields) src s) = fun s => Lookup v fields src s :=
          funext fun s => evalQuery_eq h1 src s
        rw [heq]; exact lookup_stable v fields src
      rcases h2 : mapGet fields "has" with _ | v
      case some =>
        have heq : (fun s => EvalQuery (.obj fields) src s) =
            fun s => PathExistence v fields src s :=
          funext fun s => evalQuery_has h1 h2 src s
        rw [heq]; exact pathExistence_stable v fields src
      rcases h3 : mapGet fields "n" with _ | v
      case some =>
        have heq : (fun s => EvalQuery (.obj fields) src s) = fun s => Intersect v src s :=
          funext fun s => evalQuery_n h1 h2 h3 src s
        rw [heq]; exact intersect_stable v src
      have h4 : mapGet fields "c" = none := cFreeTop_obj hfree h1 h2 h3
      rcases h5 : mapGet fields "int-from" with _ | v
      case some =>
        have heq : (fun s => EvalQuery (.obj fields) src s) =
            fun s => IntRange v fields src s :=
          funext fun s => evalQuery_intFrom h1 h2 h3 h4 h5 src s
        rw [heq]; exact intRange_stable v fields src
      rcases h6 : mapGet fields "int from" with _ | v
      case some =>
        have heq : (fun s => EvalQuery (.obj fields) src s) =
            fun s => IntRange v fields src s :=
          funext fun s => evalQuery_intFromSpace h1 h2 h3 h4 h5 h6 src s
        rw [heq]; exact intRange_stable v fields src
      have heq : (fun s => EvalQuery (.obj fields) src s) =
          fun s => (s, some .noOperation) :=
        funext fun s => evalQuery_noOp h1 h2 h3 h4 h5 h6 src s
      rw [heq]; exact stable_of_plain (some .noOperation)

/-! ## Claims -/

/-- A single-child complement query: evaluating it twice into the same
accumulator toggles the membership of document 1. -/
def cQuery : Jval := .obj [("c", .arr [.str "1"])]

/-- C1, counterexample: union idempotence fails for the complement
operator.  Against the empty collection, `cQuery` alone yields `{1}`, but
the ordered sequence `[cQuery, cQuery]` yields `∅`: the second pass takes
the symmetric difference with the first pass's result and cancels it. -/
theorem c1_union_idempotence_counterexample :
    EvalQuery cQuery col0 ∅ = ({1}, none) ∧
      EvalQuery (.arr [cQuery, cQuery]) col0 ∅ = (∅, none) ∧
      EvalQuery (.arr [cQuery, cQuery]) col0 ∅ ≠ EvalQuery cQuery col0 ∅ := by
  have hp : parseIntGo "1" = some 1 := by decide
  have ha : EvalQuery cQuery col0 ∅ = ({1}, none) := by
    simp [cQuery, EvalQuery, Complement, complementLoop, mapGet, hp]
  have hb : EvalQuery (.arr [cQuery, cQuery]) col0 ∅ = (∅, none) := by
    simp [cQuery, EvalQuery, EvalUnion, Complement, complementLoop, mapGet, hp]
  refine ⟨ha, hb, ?_⟩
  rw [ha, hb]
  intro hcontra
  have := congrArg Prod.fst hcontra
  simp at this
  exact absurd this (by decide)

/-- C1 (amended): union idempotence holds for every query that is
complement-free at the top, i.e. with no `c` operator reachable from the
root through ordered-sequence nesting alone: for such `q`, evaluating
`[q, q]` from an empty result yields exactly the result of `q` alone
(result set and error alike). -/
theorem c1_union_idempotence_amended (q : Jval) (src : Col)
    (hfree : cFreeTop q = true) :
    EvalQuery (.arr [q, q]) src ∅ = EvalQuery q src ∅ := by
  obtain hst := evalQuery_stable src (sizeOf q + 1) q (by omega) hfree
  rcases hst with ⟨A, e, hA⟩ | ⟨p, hp⟩
  · rcases e with _ | e₀
    · rw [evalQuery_arr]
      have h0 := hA ∅
      have h1 := hA A
      simp only at h0 h1
      simp [EvalUnion, h0, h1, Finset.union_self, Finset.empty_union]
    · rw [evalQuery_arr]
      simp [EvalUnion, hA ∅]
  · rcases p with ⟨B, eo⟩
    rcases eo with _ | e₀
    · rw [evalQuery_arr]
      simp [EvalUnion, hp ∅, hp B]
    · rw [evalQuery_arr]
      simp [EvalUnion, hp ∅]

/-- C1, witness: the amended idempotence applied to the complement-free
query `"5"` on the empty collection. -/
theorem c1_union_idempotence_witness :
    cFreeTop (.str "5") = true ∧
      EvalQuery (.arr [.str "5", .str "5"]) col0 ∅ = EvalQuery (.str "5") col0 ∅ :=
  ⟨by simp [cFreeTop],
    c1_union_idempotence_amended (.str "5") col0 (by simp [cFreeTop])⟩

/-- C2: equality soundness.  Whenever an `eq` lookup over the vector path
`pathElems` succeeds, every id it adds to the result set (i.e. every member
of the output that was not already present) denotes a document that reads
back successfully and whose path resolution contains at least one leaf
whose canonical string form equals the canonical string form of the lookup
value; candidates failing the read or the comparison are never added. -/
theorem c2_eq_soundness {lookupValue : Jval} {expr : List (String × Jval)}
    {src : Col} {result result' : Finset Int} {pathElems : List Jval}
    (hIn : mapGet expr "in" = some (.arr pathElems))
    (hEval : Lookup lookupValue expr src result = (result', none)) :
    ∀ id ∈ result', id ∉ result →
      ∃ doc, src.read id = some doc ∧
        ∃ v ∈ GetIn doc (pathElems.map fmtSprint),
          fmtSprint v = fmtSprint lookupValue := by
  rcases hpl : parseLimit expr with e | lim
  · simp [Lookup, hIn, toVecPath, hpl] at hEval
  by_cases hidx : String.intercalate INDEX_PATH_SEP (pathElems.map fmtSprint) ∈ src.indexPaths
  · simp only [Lookup, hIn, toVecPath, hpl, hidx, if_pos, lookupFilter_eq,
      Prod.mk.injEq] at hEval
    intro id hid hnot
    rw [← hEval.1] at hid
    rcases Finset.mem_union.1 hid with hmem | hmem
    · exact absurd hmem hnot
    · have hfil := List.mem_filter.1 (List.mem_toFinset.1 hmem)
      have hmatch := hfil.2
      unfold lookupMatches at hmatch
      rcases hr : src.read id with _ | doc
      · rw [hr] at hmatch; simp at hmatch
      · rw [hr] at hmatch
        simp only [List.any_eq_true, beq_iff_eq] at hmatch
        obtain ⟨v, hv, hveq⟩ := hmatch
        exact ⟨doc, rfl, v, hv, hveq⟩
  · simp [Lookup, hIn, toVecPath, hpl, hidx] at hEval

/-- The document, collection and expression exercising the `eq` witness:
document 9 carries value 7 at path `a`, the index returns candidate 9. -/
def docW : Jval := .obj [("a", .num 7)]

def colW : Col :=
  { docIDs := [9]
    read := fun id => if id = 9 then some docW else none
    numParts := 1
    indexPaths := ["a"]
    hts := fun _ _ => ⟨fun _ _ => [9], fun _ _ => []⟩
    approxDocCount := 1 }

def exprW : List (String × Jval) := [("eq", .num 7), ("in", .arr [.str "a"])]

/-- C2, witness: the soundness theorem applied to a concrete lookup that
returns candidate 9, which reads back to a document carrying 7 at `a`. -/
theorem c2_eq_soundness_witness :
    ∃ doc, colW.read 9 = some doc ∧
      ∃ v ∈ GetIn doc (([Jval.str "a"]).map fmtSprint),
        fmtSprint v = fmtSprint (.num 7) := by
  have hidx : String.intercalate INDEX_PATH_SEP (([Jval.str "a"]).map fmtSprint)
      ∈ colW.indexPaths := by decide
  have hEval : Lookup (.num 7) exprW colW ∅ = ({9}, none) := by
    rw [Lookup_indexed (.num 7) colW ∅ (by rfl) (by rfl) hidx]
    have hget : GetIn docW ["a"] = [.num 7] := by
      simp [docW, GetIn, mapGet, fmtSprint]
    simp only [List.map, fmtSprint_str]
    simp [lookupFilter, hashScan, colW, hget]
  exact c2_eq_soundness (by rfl) hEval 9 (by simp) (by simp)

/-- An `eq` expression whose path `z` is unindexed but whose `limit` is the
non-numeric string `x`. -/
def exprBadLimit : List (String × Jval) :=
  [("eq", .num 1), ("in", .arr [.str "z"]), ("limit", .str "x")]

/-- C3, counterexample: an `eq` expression on an unindexed path does not
always return the unindexed-path error.  The limit is validated before the
indexed-path membership test, so `{eq:1, in:[z], limit:"x"}` against a
collection with no indexes fails with the non-numeric-limit error instead
(the result set is still left unchanged). -/
theorem c3_unindexed_counterexample :
    EvalQuery (.obj exprBadLimit) col0 ∅ = (∅, some QErr.badLimit) := by
  simp [EvalQuery, exprBadLimit, mapGet, Lookup, toVecPath, parseLimit]

/-- C3 (amended): for every `eq`, `has`, `int-from`, or `int from`
expression whose remaining parameters parse (the path is a vector, the
limit — if present — is numeric, and for ranges both bounds are numeric)
and whose joined path is not in the collection's indexed-path set,
evaluation returns the unindexed-path error naming the joined path and
returns the caller's result set exactly as it was. -/
theorem c3_unindexed_path (src : Col) (r : Finset Int) (fields : List (String × Jval)) :
    (∀ v pathElems lim, mapGet fields "eq" = some v →
      mapGet fields "in" = some (.arr pathElems) →
      parseLimit fields = .ok lim →
      String.intercalate INDEX_PATH_SEP (pathElems.map fmtSprint) ∉ src.indexPaths →
      EvalQuery (.obj fields) src r =
        (r, some (.unindexedPath
          (String.intercalate INDEX_PATH_SEP (pathElems.map fmtSprint))))) ∧
    (∀ pathElems lim, mapGet fields "eq" = none →
      mapGet fields "has" = some (.arr pathElems) →
      parseLimit fields = .ok lim →
      String.intercalate INDEX_PATH_SEP (pathElems.map fmtSprint) ∉ src.indexPaths →
      EvalQuery (.obj fields) src r =
        (r, some (.unindexedPath
          (String.intercalate INDEX_PATH_SEP (pathElems.map fmtSprint))))) ∧
    (∀ qf pathElems lim toI, mapGet fields "eq" = none →
      mapGet fields "has" = none → mapGet fields "n" = none →
      mapGet fields "c" = none → mapGet fields "int-from" = some (.num qf) →
      mapGet fields "in" = some (.arr pathElems) →
      parseLimit fields = .ok lim → parseTo fields = .ok toI →
      String.intercalate "," (pathElems.map fmtSprint) ∉ src.indexPaths →
      EvalQuery (.obj fields) src r =
        (r, some (.unindexedPath (String.intercalate "," (pathElems.map fmtSprint))))) ∧
    (∀ qf pathElems lim toI, mapGet fields "eq" = none →
      mapGet fields "has" = none → mapGet fields "n" = none →
      mapGet fields "c" = none → mapGet fields "int-from" = none →
      mapGet fields "int from" = some (.num qf) →
      mapGet fields "in" = some (.arr pathElems) →
      parseLimit fields = .ok lim → parseTo fields = .ok toI →
      String.intercalate "," (pathElems.map fmtSprint) ∉ src.indexPaths →
      EvalQuery (.obj fields) src r =
        (r, some (.unindexedPath (String.intercalate "," (pathElems.map fmtSprint))))) := by
  refine ⟨?_, ?_, ?_, ?_⟩
  · intro v pathElems lim h1 hIn hLim hIdx
    rw [evalQuery_eq h1]
    exact Lookup_unindexed v src r hIn hLim hIdx
  · intro pathElems lim h1 h2 hLim hIdx
    rw [evalQuery_has h1 h2]
    exact PathExistence_unindexed src r hLim hIdx
  · intro qf pathElems lim toI h1 h2 h3 h4 h5 hIn hLim hTo hIdx
    rw [evalQuery_intFrom h1 h2 h3 h4 h5]
    exact IntRange_unindexed src r hIn hLim hTo hIdx
  · intro qf pathElems lim toI h1 h2 h3 h4 h5 h6 hIn hLim hTo hIdx
    rw [evalQuery_intFromSpace h1 h2 h3 h4 h5 h6]
    exact IntRange_unindexed src r hIn hLim hTo hIdx

/-- C3, witness: the amended unindexed-path behaviour applied to the
concrete expression `{eq:1, in:[z]}` against the index-free collection. -/
theorem c3_unindexed_path_witness :
    EvalQuery (.obj [("eq", .num 1), ("in", .arr [.str "z"])]) col0 {4} =
      ({4}, some (.unindexedPath
        (String.intercalate INDEX_PATH_SEP (([Jval.str "z"]).map fmtSprint)))) :=
  (c3_unindexed_path col0 {4} [("eq", .num 1), ("in", .arr [.str "z"])]).1
    (.num 1) [.str "z"] 0 (by rfl) (by rfl) (by rfl) (by simp [col0])

/-- C4: limit honoring.  With a positive limit `k` and an initially empty
result set: an `eq` lookup (whose index probe honours the probe contract of
returning at most `limit` ids) leaves at most `k` ids; a `has` scan leaves
at most `k` ids; an `int-range` scan both keeps its cumulative insertion
counter at most `k` across the whole walk and leaves at most `k` ids. -/
theorem c4_limit_honoring :
    (∀ (src : Col) (v : Jval) (expr : List (String × Jval)) (pathElems : List Jval)
      (q : ℚ) (k : Int) (r' : Finset Int),
      mapGet expr "in" = some (.arr pathElems) →
      mapGet expr "limit" = some (.num q) → ratTrunc q = k → 0 < k →
      (∀ part path key, (((src.hts part path).get key k).length : Int) ≤ k) →
      Lookup v expr src ∅ = (r', none) → (r'.card : Int) ≤ k) ∧
    (∀ (src : Col) (hasPath : Jval) (expr : List (String × Jval)) (q : ℚ)
      (k : Int) (r' : Finset Int),
      mapGet expr "limit" = some (.num q) → ratTrunc q = k → 0 < k →
      PathExistence hasPath expr src ∅ = (r', none) → (r'.card : Int) ≤ k) ∧
    (∀ (src : Col) (htPath : String) (vals : List Int) (k : Int)
      (r' : Finset Int) (c' : Int),
      0 < k → irVals src htPath k vals ∅ 0 = (r', c') →
      c' ≤ k ∧ (r'.card : Int) ≤ k) ∧
    (∀ (src : Col) (intFrom : Jval) (expr : List (String × Jval)) (q : ℚ)
      (k : Int) (r' : Finset Int),
      mapGet expr "limit" = some (.num q) → ratTrunc q = k → 0 < k →
      IntRange intFrom expr src ∅ = (r', none) → (r'.card : Int) ≤ k) := by
  refine ⟨?_, ?_, ?_, ?_⟩
  · intro src v expr pathElems q k r' hIn hq hk hpos hcontract hEval
    have hLim : parseLimit expr = .ok k := hk ▸ parseLimit_num hq
    by_cases hidx : String.intercalate INDEX_PATH_SEP (pathElems.map fmtSprint)
        ∈ src.indexPaths
    · rw [Lookup_indexed v src ∅ hIn hLim hidx] at hEval
      obtain ⟨h1, _⟩ := Prod.mk.injEq .. ▸ hEval
      rw [lookupFilter_eq] at h1
      have hsub : r'.card ≤ (((src.hts (StrHash (fmtSprint v) % src.numParts)
          (String.intercalate INDEX_PATH_SEP (pathElems.map fmtSprint))).get
          (StrHash (fmtSprint v)) k).filter
          (lookupMatches src (pathElems.map fmtSprint) (fmtSprint v))).length := by
        rw [← h1]
        simp only [Finset.empty_union]
        exact List.toFinset_card_le _
      have hfil := List.length_filter_le
        (lookupMatches src (pathElems.map fmtSprint) (fmtSprint v))
        (((src.hts (StrHash (fmtSprint v) % src.numParts)
          (String.intercalate INDEX_PATH_SEP (pathElems.map fmtSprint))).get
          (StrHash (fmtSprint v)) k))
      have hlen := hcontract (StrHash (fmtSprint v) % src.numParts)
        (String.intercalate INDEX_PATH_SEP (pathElems.map fmtSprint))
        (StrHash (fmtSprint v))
      omega
    · rw [Lookup_unindexed v src ∅ hIn hLim hidx] at hEval
      simp at hEval
  · intro src hasPath expr q k r' hq hk hpos hEval
    rcases hvp : toVecPath hasPath with _ | vecPath
    · simp [PathExistence, hvp] at hEval
    have hLim : parseLimit expr = .ok k := hk ▸ parseLimit_num hq
    by_cases hidx : String.intercalate INDEX_PATH_SEP vecPath ∈ src.indexPaths
    · simp only [PathExistence, hvp, hLim, hidx, if_pos, Prod.mk.injEq] at hEval
      rcases hrun : peParts src (String.intercalate INDEX_PATH_SEP vecPath)
          (if src.approxDocCount / src.numParts / 4000 = 0 then
            src.approxDocCount / src.numParts / 4000 + 1
          else src.approxDocCount / src.numParts / 4000)
          k (List.range src.numParts) ∅ 0 with ⟨rr, cc, dd⟩
      obtain ⟨hb1, hb2, hb3, hb4⟩ := peParts_bound src _ _ k _ 0 ∅ rr cc dd hpos hpos hrun
      rw [hrun] at hEval
      have hr' : r' = rr := hEval.1.symm
      subst hr'
      simp only [Finset.card_empty] at hb4
      rcases dd with _ | _
      · have := hb3 rfl
        omega
      · have := hb2 rfl
        omega
    · simp [PathExistence, hvp, hLim, hidx] at hEval
  · intro src htPath vals k r' c' hpos hrun
    obtain ⟨hb1, hb2, hb3⟩ := irVals_bound src htPath k vals 0 ∅ r' c' hpos (by omega) hrun
    simp only [Finset.card_empty] at hb3
    exact ⟨hb2, by omega⟩
  · intro src intFrom expr q k r' hq hk hpos hEval
    rcases hIn : mapGet expr "in" with _ | path
    · simp [IntRange, hIn] at hEval
    rcases hvp : toVecPath path with _ | vecPath
    · simp [IntRange, hIn, hvp] at hEval
    have hLim : parseLimit expr = .ok k := hk ▸ parseLimit_num hq
    rcases intFrom with _ | b | floatFrom | s₀ | elems | fields
    case num =>
      rcases hto : parseTo expr with e | toI
      · simp [IntRange, hIn, hvp, hLim, hto] at hEval
      by_cases hidx : String.intercalate "," vecPath ∈ src.indexPaths
      · by_cases hlt : ratTrunc floatFrom < toI
        · simp only [IntRange, hIn, hvp, hLim, hto, hidx, if_pos, hlt, if_true,
            Prod.mk.injEq] at hEval
          rcases hrun : irVals src (String.intercalate "," vecPath) k
              (ascRange (ratTrunc floatFrom) toI) ∅ 0 with ⟨rr, cc⟩
          obtain ⟨hb1, hb2, hb3⟩ :=
            irVals_bound src _ k _ 0 ∅ rr cc hpos (by omega) hrun
          rw [hrun] at hEval
          have hr' : r' = rr := hEval.1.symm
          subst hr'
          simp only [Finset.card_empty] at hb3
          omega
        · simp only [IntRange, hIn, hvp, hLim, hto, hidx, if_pos, hlt, if_false,
            Prod.mk.injEq] at hEval
          rcases hrun : irVals src (String.intercalate "," vecPath) k
              (descRange (ratTrunc floatFrom) toI) ∅ 0 with ⟨rr, cc⟩
          obtain ⟨hb1, hb2, hb3⟩ :=
            irVals_bound src _ k _ 0 ∅ rr cc hpos (by omega) hrun
          rw [hrun] at hEval
          have hr' : r' = rr := hEval.1.symm
          subst hr'
          simp only [Finset.card_empty] at hb3
          omega
      · simp [IntRange, hIn, hvp, hLim, hto, hidx] at hEval
    all_goals simp [IntRange, hIn, hvp, hLim] at hEval

/-- The indexed but empty collection used by the limit witness. -/
def colL : Col :=
  { docIDs := []
    read := fun _ => none
    numParts := 1
    indexPaths := [String.intercalate INDEX_PATH_SEP [fmtSprint (Jval.str "a")]]
    hts := fun _ _ => emptyHT
    approxDocCount := 0 }

/-- C4, witness: the limit bound applied to a concrete `eq` lookup with
limit 1 and to a concrete one-value empty range walk. -/
theorem c4_limit_honoring_witness :
    Lookup (.num 1) [("eq", .num 1), ("in", .arr [.str "a"]), ("limit", .num 1)]
        colL ∅ = (∅, none) ∧
      (((∅ : Finset Int).card : Int) ≤ 1) ∧
      ((0 : Int) ≤ 1 ∧ (((∅ : Finset Int).card : Int) ≤ 1)) := by
  have hEval : Lookup (.num 1)
      [("eq", .num 1), ("in", .arr [.str "a"]), ("limit", .num 1)] colL ∅ =
      (∅, none) := by
    rw [Lookup_indexed (.num 1) colL ∅ (by rfl) (by rfl) (by simp [colL])]
    simp [lookupFilter, hashScan, colL, emptyHT]
  refine ⟨hEval, ?_, ?_⟩
  · exact c4_limit_honoring.1 colL (.num 1)
      [("eq", .num 1), ("in", .arr [.str "a"]), ("limit", .num 1)]
      [.str "a"] 1 1 ∅ (by rfl) (by rfl) (by decide) (by decide)
      (fun part path key => by simp [colL, emptyHT]) hEval
  · exact c4_limit_honoring.2.2.1 col0 "a" [] 1 ∅ 0 (by decide) (by simp [irVals])

/-- A single `eq` probe expression `{eq: v, in: pathElems}`. -/
def eqObj (v : Int) (pathElems : List Jval) : Jval :=
  .obj [("eq", .num (v : ℚ)), ("in", .arr pathElems)]

/-- A limit-free range expression `{int-from: a, int-to: b, in: pathElems}`. -/
def rangeObj (a b : Int) (pathElems : List Jval) : Jval :=
  .obj [("int-from", .num (a : ℚ)), ("int-to", .num (b : ℚ)), ("in", .arr pathElems)]

theorem ascRange_self (a : Int) : ascRange a a = [a] := by
  unfold ascRange
  simp only [sub_self, Int.toNat_zero, List.range_succ, List.range_zero,
    List.nil_append, List.map_cons, List.map_nil, Nat.cast_zero, add_zero]

theorem descRange_self (a : Int) : descRange a a = [a] := by
  unfold descRange
  simp only [sub_self, Int.toNat_zero, List.range_succ, List.range_zero,
    List.nil_append, List.map_cons, List.map_nil, Nat.cast_zero, sub_zero]

/-- Evaluating the union of per-value `eq` probes over collision-free,
stale-free index data inserts exactly the ids probed for each value. -/
theorem evalUnion_eqProbes (src : Col) (pathElems : List Jval) (vals : List Int)
    (hIdx : String.intercalate "," (pathElems.map fmtSprint) ∈ src.indexPaths)
    (hok : ∀ v ∈ vals, ∀ id ∈ hashScan src
        (String.intercalate "," (pathElems.map fmtSprint)) (StrHash (toString v)) 0,
      lookupMatches src (pathElems.map fmtSprint) (toString v) id = true) :
    ∀ r, EvalUnion (vals.map (fun v => eqObj v pathElems)) src r =
      (r ∪ probeUnion src (String.intercalate "," (pathElems.map fmtSprint)) 0 vals,
        none) := by
  have hsep : INDEX_PATH_SEP = "," := rfl
  induction vals with
  | nil => intro r; simp [EvalUnion, probeUnion]
  | cons v rest ih =>
    intro r
    have hq : EvalQuery (eqObj v pathElems) src r =
        Lookup (.num (v : ℚ)) [("eq", .num (v : ℚ)), ("in", .arr pathElems)] src r := by
      rw [eqObj]
      exact evalQuery_eq (by rfl) src r
    have hlk : Lookup (.num (v : ℚ)) [("eq", .num (v : ℚ)), ("in", .arr pathElems)] src r =
        (r ∪ (hashScan src (String.intercalate "," (pathElems.map fmtSprint))
          (StrHash (toString v)) 0).toFinset, none) := by
      rw [Lookup_indexed (.num (v : ℚ)) src r (by rfl)
        (parseLimit_absent (by rfl)) (by rw [hsep]; exact hIdx)]
      rw [lookupFilter_eq]
      rw [hsep, fmtSprint_intCast]
      rw [List.filter_eq_self.2 fun id hid => hok v (by simp) id hid]
    have ihr := ih (fun v' hv' id hid => hok v' (by simp [hv']) id hid)
      (r ∪ (hashScan src (String.intercalate "," (pathElems.map fmtSprint))
        (StrHash (toString v)) 0).toFinset)
    rw [List.map_cons]
    simp only [EvalUnion, hq, hlk, ihr, probeUnion]
    rw [Finset.union_assoc]

/-- C5: range decomposition.  On an indexed path with data free of hash
collisions and stale index entries (every probed candidate verifies), the
limit-free range `{int-from: a, int-to: b, in: p}` with `a ≤ b` evaluates
to exactly the same result pair as the union
`[{eq: a, in: p}, …, {eq: b, in: p}]`; in particular for `a = b` the
range degenerates to the single probe of `a` (the backward walk of the
source visits exactly one value there). -/
theorem c5_range_decomposition (src : Col) (pathElems : List Jval) (a b : Int)
    (hab : a ≤ b)
    (hIdx : String.intercalate "," (pathElems.map fmtSprint) ∈ src.indexPaths)
    (hok : ∀ v ∈ ascRange a b, ∀ id ∈ hashScan src
        (String.intercalate "," (pathElems.map fmtSprint)) (StrHash (toString v)) 0,
      lookupMatches src (pathElems.map fmtSprint) (toString v) id = true) :
    EvalQuery (rangeObj a b pathElems) src ∅ =
      EvalQuery (.arr ((ascRange a b).map (fun v => eqObj v pathElems))) src ∅ := by
  have hrange : EvalQuery (rangeObj a b pathElems) src ∅ =
      IntRange (.num (a : ℚ)) [("int-from", .num (a : ℚ)), ("int-to", .num (b : ℚ)),
        ("in", .arr pathElems)] src ∅ := by
    rw [rangeObj]
    exact evalQuery_intFrom (by rfl) (by rfl) (by rfl) (by rfl) (by rfl) src ∅
  have hto : parseTo [("int-from", .num (a : ℚ)), ("int-to", .num (b : ℚ)),
      ("in", .arr pathElems)] = .ok b := by
    rw [parseTo_num (by rfl), ratTrunc_intCast]
  rw [hrange, IntRange_indexed src ∅ (by rfl) (parseLimit_absent (by rfl)) hto hIdx]
  rw [evalQuery_arr, evalUnion_eqProbes src pathElems (ascRange a b) hIdx hok ∅]
  rw [ratTrunc_intCast]
  rcases lt_or_eq_of_le hab with hlt | heq
  · rw [if_pos hlt, irVals_noLimit]
  · subst heq
    rw [if_neg (lt_irrefl a), descRange_self, ← ascRange_self a, irVals_noLimit]

/-- C5, witness: the decomposition applied to the empty indexed collection
over the range 0‥1 (all probes return no candidates). -/
theorem c5_range_decomposition_witness :
    EvalQuery (rangeObj 0 1 [.str "a"]) colL ∅ =
      EvalQuery (.arr ((ascRange 0 1).map (fun v => eqObj v [.str "a"]))) colL ∅ :=
  c5_range_decomposition colL [.str "a"] 0 1 (by decide) (by decide)
    (fun v _ id hid => absurd hid (by simp [hashScan, colL, emptyHT]))

/-- C6: the complement fold.  (i) After a child whose sub-result is `S`
(evaluated on a fresh empty accumulator), the accumulator `r` becomes the
symmetric difference `(S \ r) ∪ (r \ S)` and the loop continues; (ii) for
the distinct document-id strings `1` and `2`, `{c:["1","2"]}` on an empty
accumulator yields `{1, 2}`; (iii) for any sub-query `d` that evaluates
successfully, `{c:[d, d]}` on an empty accumulator yields the empty set. -/
theorem c6_complement_symmdiff :
    (∀ (q : Jval) (rest : List Jval) (src : Col) (r S : Finset Int),
      EvalQuery q src ∅ = (S, none) →
      complementLoop (q :: rest) src r =
        complementLoop rest src ((S \ r) ∪ (r \ S))) ∧
    (∀ src : Col, EvalQuery (.obj [("c", .arr [.str "1", .str "2"])]) src ∅ =
      ({1, 2}, none)) ∧
    (∀ (d : Jval) (src : Col) (S : Finset Int),
      EvalQuery d src ∅ = (S, none) →
      EvalQuery (.obj [("c", .arr [d, d])]) src ∅ = (∅, none)) := by
  refine ⟨?_, ?_, ?_⟩
  · intro q rest src r S hEval
    simp only [complementLoop, hEval]
  · intro src
    rw [evalQuery_c (by rfl) (by rfl) (by rfl) (by rfl)]
    have h1 : EvalQuery (.str "1") src ∅ = (insert 1 ∅, none) :=
      evalQuery_str_docID (by decide) (by decide) src ∅
    have h2 : EvalQuery (.str "2") src ∅ = (insert 2 ∅, none) :=
      evalQuery_str_docID (by decide) (by decide) src ∅
    simp only [Complement, complementLoop, h1, h2]
    refine Prod.ext ?_ rfl
    decide
  · intro d src S hEval
    rw [evalQuery_c (by rfl) (by rfl) (by rfl) (by rfl)]
    simp [Complement, complementLoop, hEval]

/-- C6, witness: the fold step applied to the child `"1"` against the
accumulator `{5}`, and the cancellation applied to the duplicated child
`"3"`. -/
theorem c6_complement_symmdiff_witness :
    complementLoop [.str "1"] col0 {5} =
        complementLoop [] col0 ((({1} : Finset Int) \ {5}) ∪ (({5} : Finset Int) \ {1})) ∧
      EvalQuery (.obj [("c", .arr [.str "3", .str "3"])]) col0 ∅ = (∅, none) := by
  have h1 : EvalQuery (.str "1") col0 ∅ = ({1}, none) := by
    rw [@evalQuery_str_docID "1" 1 (by decide) (by decide) col0 ∅]
    refine Prod.ext ?_ rfl
    decide
  have h3 : EvalQuery (.str "3") col0 ∅ = ({3}, none) := by
    rw [@evalQuery_str_docID "3" 3 (by decide) (by decide) col0 ∅]
    refine Prod.ext ?_ rfl
    decide
  exact ⟨c6_complement_symmdiff.1 (.str "1") [] col0 {5} {1} h1,
    c6_complement_symmdiff.2.2 (.str "3") col0 {3} h3⟩

/-- C7: intersection semantics of the `n` operator.  (i) With zero children
the accumulator is left untouched and evaluation succeeds; (ii) the first
child is evaluated into a fresh empty sub-result which replaces the
accumulator wholesale, whatever it held before; (iii) every subsequent
child is evaluated into a fresh empty sub-result and the accumulator
becomes its intersection with it; (iv) consequently a two-child `n` node
yields exactly the intersection of the two children's sub-results,
independent of the accumulator's prior contents. -/
theorem c7_intersection_semantics :
    (∀ (src : Col) (r : Finset Int), Intersect (.arr []) src r = (r, none)) ∧
    (∀ (q : Jval) (rest : List Jval) (src : Col) (r S : Finset Int),
      EvalQuery q src ∅ = (S, none) →
      Intersect (.arr (q :: rest)) src r = intersectLoop rest src S false) ∧
    (∀ (q : Jval) (rest : List Jval) (src : Col) (r S : Finset Int),
      EvalQuery q src ∅ = (S, none) →
      intersectLoop (q :: rest) src r false = intersectLoop rest src (r ∩ S) false) ∧
    (∀ (q1 q2 : Jval) (src : Col) (r S1 S2 : Finset Int),
      EvalQuery q1 src ∅ = (S1, none) → EvalQuery q2 src ∅ = (S2, none) →
      EvalQuery (.obj [("n", .arr [q1, q2])]) src r = (S1 ∩ S2, none)) := by
  refine ⟨?_, ?_, ?_, ?_⟩
  · intro src r
    simp [Intersect, intersectLoop]
  · intro q rest src r S hEval
    simp only [Intersect, intersectLoop, hEval, if_true]
  · intro q rest src r S hEval
    simp only [intersectLoop, hEval, Bool.false_eq_true, if_false]
  · intro q1 q2 src r S1 S2 h1 h2
    rw [evalQuery_n (by rfl) (by rfl) (by rfl)]
    simp only [Intersect, intersectLoop, h1, h2, if_true, Bool.false_eq_true, if_false]

/-- C7, witness: the two-child intersection applied to the duplicated
document-id query `"1"` against the non-empty accumulator `{9}`. -/
theorem c7_intersection_semantics_witness :
    EvalQuery (.obj [("n", .arr [.str "1", .str "1"])]) col0 {9} =
      (({1} : Finset Int) ∩ {1}, none) := by
  have h1 : EvalQuery (.str "1") col0 ∅ = ({1}, none) := by
    rw [@evalQuery_str_docID "1" 1 (by decide) (by decide) col0 ∅]
    refine Prod.ext ?_ rfl
    decide
  exact c7_intersection_semantics.2.2.2 (.str "1") (.str "1") col0 {9} {1} {1} h1 h1

/-- The regular-language form the claim ascribes to document-id strings:
an optional single minus sign followed by at least one decimal digit. -/
def specIntForm (s : String) : Bool :=
  match s.toList with
  | '-' :: rest => !rest.isEmpty && rest.all Char.isDigit
  | chars => !chars.isEmpty && chars.all Char.isDigit

/-- C8, counterexample: the string `+5` does not match the claimed form
(it carries a plus sign), is not `all`, and yet evaluation succeeds and
inserts id 5 — Go's `strconv.ParseInt` accepts an optional `+`.  (The
claimed form is also too generous the other way: all-digit strings beyond
the 64-bit range fail.) -/
theorem c8_string_counterexample :
    specIntForm "+5" = false ∧ "+5" ≠ "all" ∧
      EvalQuery (.str "+5") col0 ∅ = ({5}, none) := by
  refine ⟨by decide, by decide, ?_⟩
  rw [@evalQuery_str_docID "+5" 5 (by decide) (by decide) col0 ∅]
  refine Prod.ext ?_ rfl
  decide

/-- C8 (amended): string-node semantics.  The string `all` adds every live
document id and succeeds; any other string accepted by
`strconv.ParseInt(s, 10, 64)` — an optional single `+` or `-` sign, one or
more decimal digits, value within the signed 64-bit range — adds exactly
that one integer id and succeeds; any other string rejected by that parse
fails with InvalidQuery and leaves the result unchanged. -/
theorem c8_string_semantics :
    (∀ (src : Col) (r : Finset Int),
      EvalQuery (.str "all") src r = (r ∪ src.docIDs.toFinset, none)) ∧
    (∀ (s : String) (n : Int) (src : Col) (r : Finset Int), s ≠ "all" →
      parseIntGo s = some n → EvalQuery (.str s) src r = (insert n r, none)) ∧
    (∀ (s : String) (src : Col) (r : Finset Int), s ≠ "all" →
      parseIntGo s = none → EvalQuery (.str s) src r = (r, some (.notDocID s))) := by
  refine ⟨?_, ?_, ?_⟩
  · intro src r
    rw [evalQuery_all, evalAllIDs_eq]
  · intro s n src r hall hp
    exact evalQuery_str_docID hall hp src r
  · intro s src r hall hp
    exact evalQuery_str_bad hall hp src r

/-- C8, witness: the amended semantics applied to `all` on a two-document
collection, to the decimal string `-42`, and to the unparseable string
`12x`. -/
theorem c8_string_semantics_witness :
    EvalQuery (.str "all") colW {4} = ({4} ∪ ([9] : List Int).toFinset, none) ∧
      EvalQuery (.str "-42") col0 {7} = (insert (-42) {7}, none) ∧
      EvalQuery (.str "12x") col0 {7} = ({7}, some (.notDocID "12x")) :=
  ⟨c8_string_semantics.1 colW {4},
    c8_string_semantics.2.1 "-42" (-42) col0 {7} (by decide) (by decide),
    c8_string_semantics.2.2 "12x" col0 {7} (by decide) (by decide)⟩

/-- C9: mapping dispatch.  The keys `eq`, `has`, `n`, `c`, `int-from`,
`int from` are probed in exactly that priority order: a present `eq`
dispatches to the lookup operator whatever else the node carries, `has`
fires only when `eq` is absent, and so on; a mapping carrying none of the
six keys fails with InvalidQuery leaving the result unchanged; and the
non-sequence, non-string, non-mapping shapes (null, boolean, number)
return success without modifying the result. -/
theorem c9_mapping_dispatch :
    (∀ (fields : List (String × Jval)) (v : Jval) (src : Col) (r : Finset Int),
      mapGet fields "eq" = some v →
      EvalQuery (.obj fields) src r = Lookup v fields src r) ∧
    (∀ fields (v : Jval) src (r : Finset Int), mapGet fields "eq" = none →
      mapGet fields "has" = some v →
      EvalQuery (.obj fields) src r = PathExistence v fields src r) ∧
    (∀ fields (v : Jval) src (r : Finset Int), mapGet fields "eq" = none →
      mapGet fields "has" = none → mapGet fields "n" = some v →
      EvalQuery (.obj fields) src r = Intersect v src r) ∧
    (∀ fields (v : Jval) src (r : Finset Int), mapGet fields "eq" = none →
      mapGet fields "has" = none → mapGet fields "n" = none →
      mapGet fields "c" = some v →
      EvalQuery (.obj fields) src r = Complement v src r) ∧
    (∀ fields (v : Jval) src (r : Finset Int), mapGet fields "eq" = none →
      mapGet fields "has" = none → mapGet fields "n" = none →
      mapGet fields "c" = none → mapGet fields "int-from" = some v →
      EvalQuery (.obj fields) src r = IntRange v fields src r) ∧
    (∀ fields (v : Jval) src (r : Finset Int), mapGet fields "eq" = none →
      mapGet fields "has" = none → mapGet fields "n" = none →
      mapGet fields "c" = none → mapGet fields "int-from" = none →
      mapGet fields "int from" = some v →
      EvalQuery (.obj fields) src r = IntRange v fields src r) ∧
    (∀ fields src (r : Finset Int), mapGet fields "eq" = none →
      mapGet fields "has" = none → mapGet fields "n" = none →
      mapGet fields "c" = none → mapGet fields "int-from" = none →
      mapGet fields "int from" = none →
      EvalQuery (.obj fields) src r = (r, some .noOperation)) ∧
    (∀ src (r : Finset Int), EvalQuery .null src r = (r, none)) ∧
    (∀ (b : Bool) src (r : Finset Int), EvalQuery (.bool b) src r = (r, none)) ∧
    (∀ (q : ℚ) src (r : Finset Int), EvalQuery (.num q) src r = (r, none)) :=
  ⟨fun _ _ src r h1 => evalQuery_eq h1 src r,
    fun _ _ src r h1 h2 => evalQuery_has h1 h2 src r,
    fun _ _ src r h1 h2 h3 => evalQuery_n h1 h2 h3 src r,
    fun _ _ src r h1 h2 h3 h4 => evalQuery_c h1 h2 h3 h4 src r,
    fun _ _ src r h1 h2 h3 h4 h5 => evalQuery_intFrom h1 h2 h3 h4 h5 src r,
    fun _ _ src r h1 h2 h3 h4 h5 h6 => evalQuery_intFromSpace h1 h2 h3 h4 h5 h6 src r,
    fun _ src r h1 h2 h3 h4 h5 h6 => evalQuery_noOp h1 h2 h3 h4 h5 h6 src r,
    evalQuery_null, evalQuery_bool, evalQuery_num⟩

/-- C9, witness: on a node carrying both `c` and `eq`, the `eq` key wins
(probing order, not map order); a node with no recognized key fails with
InvalidQuery; and a bare number is ignored. -/
theorem c9_mapping_dispatch_witness :
    EvalQuery (.obj [("c", .arr []), ("eq", .num 1), ("in", .arr [.str "a"])]) col0 {3} =
        Lookup (.num 1) [("c", .arr []), ("eq", .num 1), ("in", .arr [.str "a"])] col0 {3} ∧
      EvalQuery (.obj [("foo", .null)]) col0 {3} = ({3}, some .noOperation) ∧
      EvalQuery (.num 7) col0 {3} = ({3}, none) :=
  ⟨c9_mapping_dispatch.1 [("c", .arr []), ("eq", .num 1), ("in", .arr [.str "a"])]
      (.num 1) col0 {3} (by rfl),
    c9_mapping_dispatch.2.2.2.2.2.2.1 [("foo", .null)] col0 {3}
      (by rfl) (by rfl) (by rfl) (by rfl) (by rfl) (by rfl),
    c9_mapping_dispatch.2.2.2.2.2.2.2.2.2 7 col0 {3}⟩

/-- C10: implicit numeric-parameter truncation.  A numeric `limit` is
always accepted and truncated toward zero (never the non-numeric-limit
error, for all three operators); numeric `int-from`/`int-to` bounds are
always accepted and truncated toward zero (never the non-numeric-bound or
missing-bound errors); the truncated bounds are exactly the endpoints of
the walk; and truncation is toward zero on both signs, as the sample
values 5/2 ↦ 2 and −5/2 ↦ −2 pin down. -/
theorem c10_numeric_truncation :
    (∀ (expr : List (String × Jval)) (q : ℚ), mapGet expr "limit" = some (.num q) →
      parseLimit expr = .ok (ratTrunc q)) ∧
    (∀ (expr : List (String × Jval)) (q : ℚ), mapGet expr "int-to" = some (.num q) →
      parseTo expr = .ok (ratTrunc q)) ∧
    (∀ (v : Jval) (expr : List (String × Jval)) (src : Col) (r : Finset Int) (q : ℚ),
      mapGet expr "limit" = some (.num q) →
      (Lookup v expr src r).2 ≠ some QErr.badLimit) ∧
    (∀ (hp : Jval) (expr : List (String × Jval)) (src : Col) (r : Finset Int) (q : ℚ),
      mapGet expr "limit" = some (.num q) →
      (PathExistence hp expr src r).2 ≠ some QErr.badLimit) ∧
    (∀ (expr : List (String × Jval)) (src : Col) (r : Finset Int) (qf ql qt : ℚ),
      mapGet expr "limit" = some (.num ql) → mapGet expr "int-to" = some (.num qt) →
      (IntRange (.num qf) expr src r).2 ≠ some QErr.badLimit ∧
      (IntRange (.num qf) expr src r).2 ≠ some QErr.badIntFrom ∧
      (IntRange (.num qf) expr src r).2 ≠ some QErr.badIntTo ∧
      (IntRange (.num qf) expr src r).2 ≠ some QErr.missingIntTo) ∧
    (∀ (expr : List (String × Jval)) (src : Col) (r : Finset Int) (qf qt : ℚ)
      (pathElems : List Jval) (lim : Int),
      mapGet expr "in" = some (.arr pathElems) → parseLimit expr = .ok lim →
      mapGet expr "int-to" = some (.num qt) →
      String.intercalate "," (pathElems.map fmtSprint) ∈ src.indexPaths →
      ratTrunc qf < ratTrunc qt →
      IntRange (.num qf) expr src r =
        ((irVals src (String.intercalate "," (pathElems.map fmtSprint)) lim
          (ascRange (ratTrunc qf) (ratTrunc qt)) r 0).1, none)) ∧
    (ratTrunc (5 / 2 : ℚ) = 2 ∧ ratTrunc (-(5 / 2) : ℚ) = -2 ∧
      ratTrunc (-(37 / 10) : ℚ) = -3) := by
  have htr : ratTrunc (5 / 2 : ℚ) = 2 ∧ ratTrunc (-(5 / 2) : ℚ) = -2 ∧
      ratTrunc (-(37 / 10) : ℚ) = -3 := by
    have h1 : (5 / 2 : ℚ).num = 5 := by norm_num
    have h2 : (5 / 2 : ℚ).den = 2 := by norm_num
    have h3 : (-(5 / 2) : ℚ).num = -5 := by norm_num
    have h4 : (-(5 / 2) : ℚ).den = 2 := by norm_num
    have h5 : (-(37 / 10) : ℚ).num = -37 := by norm_num
    have h6 : (-(37 / 10) : ℚ).den = 10 := by norm_num
    refine ⟨?_, ?_, ?_⟩ <;> unfold ratTrunc
    · rw [h1, h2]; decide
    · rw [h3, h4]; decide
    · rw [h5, h6]; decide
  refine ⟨?_, ?_, ?_, ?_, ?_, ?_, htr⟩
  · exact fun expr q h => parseLimit_num h
  · exact fun expr q h => parseTo_num h
  · intro v expr src r q hlim
    have hpl := parseLimit_num hlim
    rcases hIn : mapGet expr "in" with _ | path
    · simp [Lookup, hIn]
    rcases hvp : toVecPath path with _ | vecPath
    · simp [Lookup, hIn, hvp]
    by_cases hidx : String.intercalate INDEX_PATH_SEP vecPath ∈ src.indexPaths
    · simp [Lookup, hIn, hvp, hpl, hidx]
    · simp [Lookup, hIn, hvp, hpl, hidx]
  · intro hp expr src r q hlim
    have hpl := parseLimit_num hlim
    rcases hvp : toVecPath hp with _ | vecPath
    · simp [PathExistence, hvp]
    by_cases hidx : String.intercalate INDEX_PATH_SEP vecPath ∈ src.indexPaths
    · simp [PathExistence, hvp, hpl, hidx]
    · simp [PathExistence, hvp, hpl, hidx]
  · intro expr src r qf ql qt hlim hto
    have hpl := parseLimit_num hlim
    have hpt := parseTo_num hto
    rcases hIn : mapGet expr "in" with _ | path
    · simp [IntRange, hIn]
    rcases hvp : toVecPath path with _ | vecPath
    · simp [IntRange, hIn, hvp]
    by_cases hidx : String.intercalate "," vecPath ∈ src.indexPaths
    · by_cases hlt : ratTrunc qf < ratTrunc qt
      · simp [IntRange, hIn, hvp, hpl, hpt, hidx, hlt]
      · simp [IntRange, hIn, hvp, hpl, hpt, hidx, hlt]
    · simp [IntRange, hIn, hvp, hpl, hpt, hidx]
  · intro expr src r qf qt pathElems lim hIn hLim hto hIdx hlt
    rw [IntRange_indexed src r hIn hLim (parseTo_num hto) hIdx, if_pos hlt]

/-- C10, witness: the truncating parses applied to the negative
non-integral limit −37/10 (accepted as −3) and an `eq` lookup carrying it
(never the non-numeric-limit error). -/
theorem c10_numeric_truncation_witness :
    parseLimit [("limit", .num (-(37 / 10)))] = .ok (ratTrunc (-(37 / 10) : ℚ)) ∧
      ratTrunc (-(37 / 10) : ℚ) = -3 ∧
      (Lookup (.num 1) [("in", .arr [.str "a"]), ("limit", .num (-(37 / 10)))]
        col0 ∅).2 ≠ some QErr.badLimit :=
  ⟨c10_numeric_truncation.1 [("limit", .num (-(37 / 10)))] (-(37 / 10)) (by rfl),
    c10_numeric_truncation.2.2.2.2.2.2.2.2,
    c10_numeric_truncation.2.2.1 (.num 1)
      [("in", .arr [.str "a"]), ("limit", .num (-(37 / 10)))] col0 ∅ (-(37 / 10)) (by rfl)⟩

end Tiedot
